import Mathlib

/-!
Verification development for the SparseCommunicationGen repository.

The definitions below are a shallow embedding of `src/commGenerator.py`:
the volume-assignment stage (`gen_message_volumes`), the partition-sizing
stage (`initialize_graph`), the bipartite edge-construction stage
(`generate_edges` with its helpers `sample_distinct_from_range` and
`_sample_trunc_normal_01`), and the cleanup stage (`remove_isolated_nodes`),
together with the partition-array rebuild of `generate_communication`.

Python floats are idealised as rationals.  The pseudo-random generator
(`random.Random(seed)`) is modelled as an abstract stream of draws, one
index per call, with the mathematically guaranteed range of each kind of
draw (`random()` in `[0,1)`, `lognormvariate` positive, `sample` returning
distinct in-range elements, `choice` returning a member of a non-empty
sequence and failing on an empty one) stated as a validity predicate.
Claims quantified over seeds become claims quantified over valid streams.
-/

/-- Python `int(q)` on a non-negative or negative rational: truncation
toward zero (`int()` applied to a float in the source). -/
def pyInt (q : ℚ) : ℤ :=
  if q < 0 then -(Int.floor (-q)) else Int.floor q

/-- Python `round(q)` : round half to even (banker's rounding), as used in
the optional mean-targeted rescaling of `gen_message_volumes`. -/
def pyRound (q : ℚ) : ℤ :=
  let f := Int.floor q
  let r := q - (f : ℚ)
  if r < 1/2 then f
  else if 1/2 < r then f + 1
  else if f % 2 = 0 then f else f + 1

/-- Python `min` of a non-empty list (0 on the empty list, which the source
never takes). -/
def pyMin (l : List ℤ) : ℤ :=
  match l with
  | [] => 0
  | x :: xs => xs.foldl min x

/-- Directed weighted process-communication graph (the NetworKit graph
`G_directed_comm`): node ids `0 .. numNodes-1`, out-adjacency lists in
iteration order, and a total weight function (only queried on edges that
exist). -/
structure DiGraph where
  numNodes : ℕ
  adj : ℕ → List ℕ
  w : ℕ → ℕ → ℤ

/-- NetworKit `hasEdge(u, v)` for a directed graph. -/
def DiGraph.hasEdge (G : DiGraph) (u v : ℕ) : Bool :=
  (G.adj u).contains v

/-- NetworKit `iterEdges()` for a directed graph: every edge once, in node
order then adjacency order (the fixed iteration order used by
`gen_message_volumes`). -/
def DiGraph.iterEdges (G : DiGraph) : List (ℕ × ℕ) :=
  (List.range G.numNodes).flatMap (fun u => (G.adj u).map (fun v => (u, v)))

/-- Abstract stream of draws for the `random.Random(seed)` instance created
by `gen_message_volumes` (line 64): `unif c` is the value of the `c`-th call
of `rng.random()`, `lognorm sigma c` the value of the `c`-th call of
`rng.lognormvariate(mu=0, sigma=sigma)`. -/
structure VolRng where
  unif : ℕ → ℚ
  lognorm : ℚ → ℕ → ℚ

/-- Mathematical guarantees of the modelled draws: `random()` lies in
`[0,1)` and `lognormvariate` (an exponential of a normal draw) is
positive. -/
def VolRng.Valid (r : VolRng) : Prop :=
  (∀ c, 0 ≤ r.unif c ∧ r.unif c < 1) ∧ (∀ s c, 0 < r.lognorm s c)

/-- Abstract model of the float power `x ** k` used by the `power` mode
(line 76-78 of `src/commGenerator.py`); the exponent is a float, so the
operation is not rational-valued and is kept abstract. -/
structure FloatPow where
  pow : ℚ → ℚ → ℚ

/-- Guarantee of the real power function on the arguments the source feeds
it: a base in `[0,1]` raised to a positive exponent stays in `[0,1]`. -/
def FloatPow.Valid (f : FloatPow) : Prop :=
  ∀ x k, 0 ≤ x → x ≤ 1 → 0 < k → 0 ≤ f.pow x k ∧ f.pow x k ≤ 1

/-- One volume draw of the `power` branch of `gen_message_volumes`
(lines 72-80): `x = rng.random()`, `k = max(1e-6, skew)`, heavy-tail or
plain transform, then `vol = 1 + int(x * (max_volume - 1))`. -/
def powVol (fp : FloatPow) (r : VolRng) (c : ℕ) (skew : ℚ) (heavyTail : Bool)
    (maxVolume : ℤ) : ℤ :=
  let x := r.unif c
  let k := max (1/1000000) skew
  let x := if heavyTail then 1 - fp.pow (1 - x) k else fp.pow x k
  1 + pyInt (x * ((maxVolume : ℚ) - 1))

/-- One volume draw of the `lognormal` branch of `gen_message_volumes`
(lines 82-87): `sigma = max(1e-6, skew)`, `x = rng.lognormvariate(0, sigma)`,
`vol = 1 + int(min(x, 50.0) / 50.0 * (max_volume - 1))`. -/
def logVol (r : VolRng) (c : ℕ) (skew : ℚ) (maxVolume : ℤ) : ℤ :=
  let sigma := max (1/1000000) skew
  let x := r.lognorm sigma c
  1 + pyInt (min x 50 / 50 * ((maxVolume : ℚ) - 1))

/-- Error message raised for an unknown distribution mode (line 90). -/
def volModeErr : String := "mode must be \x27power\x27, \x27lognormal\x27"

/-- First pass of `gen_message_volumes` (lines 67-92): walk the edges in
iteration order, drawing one volume per edge, failing on any mode other
than `power` or `lognormal`.  The counter is the number of draws consumed
so far. -/
def rawVolumes (fp : FloatPow) (r : VolRng) (mode : String) (skew : ℚ)
    (heavyTail : Bool) (maxVolume : ℤ) : List (ℕ × ℕ) → ℕ → Except String (List ℤ)
  | [], _ => .ok []
  | _ :: rest, c =>
    if mode = "power" then
      match rawVolumes fp r mode skew heavyTail maxVolume rest (c + 1) with
      | .error e => .error e
      | .ok tail => .ok (powVol fp r c skew heavyTail maxVolume :: tail)
    else if mode = "lognormal" then
      match rawVolumes fp r mode skew heavyTail maxVolume rest (c + 1) with
      | .error e => .error e
      | .ok tail => .ok (logVol r c skew maxVolume :: tail)
    else .error volModeErr

/-- Optional mean-targeted rescaling of `gen_message_volumes` (lines 95-99):
multiply every volume by `target_mean / empirical_mean`, round to nearest
(half to even), and clamp to `[1, max_volume]`. -/
def rescale (vols : List ℤ) (targetMean : Option ℚ) (maxVolume : ℤ) : List ℤ :=
  match targetMean with
  | none => vols
  | some tm =>
    if vols.isEmpty then vols
    else
      let curMean : ℚ := (vols.sum : ℚ) / (vols.length : ℚ)
      if 0 < curMean then
        vols.map (fun v : ℤ => max 1 (min maxVolume (pyRound ((v : ℚ) * (tm / curMean)))))
      else vols

/-- `gen_message_volumes` (lines 55-106): returns the list of per-edge
weight assignments (edge, volume) that the final loop writes back with
`setWeight`, or the `ValueError` for an invalid mode. -/
def genMessageVolumes (G : DiGraph) (maxVolume : ℤ) (mode : String) (skew : ℚ)
    (heavyTail : Bool) (targetMean : Option ℚ) (r : VolRng) (fp : FloatPow) :
    Except String (List ((ℕ × ℕ) × ℤ)) :=
  match rawVolumes fp r mode skew heavyTail maxVolume G.iterEdges 0 with
  | .error e => .error e
  | .ok raw => .ok (G.iterEdges.zip (rescale raw targetMean maxVolume))

/-- Application of the assignments to the graph (`G.setWeight(u, v, vol)` in
zip order, last write winning). -/
def applyVolumes (G : DiGraph) (vols : List ((ℕ × ℕ) × ℤ)) : DiGraph :=
  vols.foldl
    (fun H p =>
      { H with w := fun a b => if a = p.1.1 ∧ b = p.1.2 then p.2 else H.w a b })
    G

/-- `_sample_trunc_normal_01` (lines 19-29): up to `fuel` rejection draws of
`rng.gauss(mean_01, sigma)` accepted inside `[0,1]`, after which one more
draw is clamped into `[0,1]`.  `g m sigma c` is the `c`-th gauss draw of the
stage's stream; the result pairs the sampled value with the new draw
counter. -/
def sampleTruncNormal01 (g : ℚ → ℚ → ℕ → ℚ) (m sigma : ℚ) :
    ℕ → ℕ → ℚ × ℕ
  | 0, c => (max 0 (min 1 (g m sigma c)), c + 1)
  | fuel + 1, c =>
    let x := g m sigma c
    if 0 ≤ x ∧ x ≤ 1 then (x, c + 1)
    else sampleTruncNormal01 g m sigma fuel (c + 1)

/-- Outgoing weight list of process `u`
(`[G.weight(u, v) for v in G.iterNeighbors(u)]`, line 132). -/
def outWeights (G : DiGraph) (u : ℕ) : List ℤ :=
  (G.adj u).map (G.w u)

/-- Body of the per-process loop of `initialize_graph` (lines 130-145):
no outgoing edge gives size 0; `max_weight <= min_weight` gives
`int(min_weight)`; otherwise a truncated-normal draw interpolates between
`min_weight` and `max_weight`. -/
def initNode (G : DiGraph) (g : ℚ → ℚ → ℕ → ℚ) (m01 sigma : ℚ) (u : ℕ)
    (c : ℕ) : ℤ × ℕ :=
  let ws := outWeights G u
  if ws.isEmpty then (0, c)
  else
    let minWeight := pyMin ws
    let maxWeight := ws.sum
    if maxWeight ≤ minWeight then (minWeight, c)
    else
      let p := sampleTruncNormal01 g m01 sigma 50 c
      (pyInt ((minWeight : ℚ) + p.1 * ((maxWeight : ℚ) - (minWeight : ℚ))), p.2)

/-- The per-process loop of `initialize_graph`, threading the gauss draw
counter through the nodes in iteration order. -/
def initNodes (G : DiGraph) (g : ℚ → ℚ → ℕ → ℚ) (m01 sigma : ℚ) :
    List ℕ → ℕ → List ℤ × ℕ
  | [], c => ([], c)
  | u :: rest, c =>
    let p := initNode G g m01 sigma u c
    let q := initNodes G g m01 sigma rest p.2
    (p.1 :: q.1, q.2)

/-- `initialize_graph` (lines 108-150): clamp `mean_position` into `[-1,1]`,
map it to a mean in `[0,1]`, map `skew` to `sigma = 0.02 + 0.25 * skew`, and
compute the partition-size array (the returned empty `G_init` skeleton is
represented by the total vertex count carried separately). -/
def initializeGraph (G : DiGraph) (meanPosition skew : ℚ)
    (g : ℚ → ℚ → ℕ → ℚ) : List ℤ :=
  let mp := max (-1) (min 1 meanPosition)
  let m01 := (mp + 1) / 2
  let sk := max 0 skew
  let sigma := 2/100 + 25/100 * sk
  (initNodes G g m01 sigma (List.range G.numNodes) 0).1

/-- Expanded fine-grained graph (the NetworKit `G_init`): a multigraph,
since NetworKit `addEdge` (with its default `checkMultiEdge=False`, as
called on lines 191, 196, 203) inserts an edge record unconditionally, even
when an equal edge is already present.  `n` is the node count it was
created with, `edges` the edge records in insertion order. -/
structure EGraph where
  n : ℕ
  edges : List (ℤ × ℤ)
deriving DecidableEq

/-- NetworKit `hasEdge` on the undirected expanded graph: an edge record in
either orientation. -/
def EGraph.hasEdge (g : EGraph) (a b : ℤ) : Bool :=
  g.edges.contains (a, b) || g.edges.contains (b, a)

/-- NetworKit `addEdge` with default arguments: append an edge record
unconditionally. -/
def EGraph.addEdge (g : EGraph) (a b : ℤ) : EGraph :=
  { g with edges := g.edges ++ [(a, b)] }

/-- Number of edge records between the unordered vertex pair `{a, b}`
(NetworKit counts parallel records separately in `numberOfEdges`). -/
def edgeMult (g : EGraph) (a b : ℤ) : ℕ :=
  (g.edges.filter (fun e => e = (a, b) ∨ e = (b, a))).length

/-- Abstract stream of draws for the `random.Random(seed)` instance created
by `generate_edges` (line 160): `sample c start size k` is the result of the
`c`-th rng call when it is `rng.sample(range(start, start+size), k)`,
`choice c l` the result of `rng.choice(l)` (`none` models the `IndexError`
Python raises on an empty sequence), `rand c` the result of
`rng.random()`. -/
structure EdgeRng where
  sample : ℕ → ℤ → ℤ → ℕ → List ℤ
  choice : ℕ → List ℤ → Option ℤ
  rand : ℕ → ℚ

/-- Guarantees of the modelled draws: `sample` returns `k` distinct
elements of the range whenever `k` does not exceed the range size,
`choice` returns a member exactly when the sequence is non-empty, and
`random()` lies in `[0,1)`. -/
def EdgeRng.Valid (r : EdgeRng) : Prop :=
  (∀ (c : ℕ) (start size : ℤ) (k : ℕ), (k : ℤ) ≤ size →
      (r.sample c start size k).length = k ∧
      (r.sample c start size k).Nodup ∧
      ∀ x ∈ r.sample c start size k, start ≤ x ∧ x < start + size) ∧
  (∀ c l, (l = [] → r.choice c l = none) ∧
      (∀ x, r.choice c l = some x → x ∈ l) ∧
      (l ≠ [] → (r.choice c l).isSome)) ∧
  (∀ c, 0 ≤ r.rand c ∧ r.rand c < 1)

/-- `sample_distinct_from_range` (lines 45-53): empty on a non-positive
range size, otherwise the requested sample size is clamped into
`[0, size]` before sampling without replacement. -/
def sampleDistinctFromRange (r : EdgeRng) (c : ℕ) (start size sampleSize : ℤ) :
    List ℤ :=
  if size ≤ 0 then []
  else r.sample c start size (max 0 (min sampleSize size)).toNat

/-- The `IndexError` Python raises when `rng.choice` is called on an empty
sequence (line 190 / 195 with an empty opposite sample). -/
def choiceEmptyErr : String := "IndexError: cannot choose from an empty sequence"

/-- Inconsistency error of `generate_edges` for a zero-size partition
(line 180). -/
def pairErrMsg (u v : ℕ) (su sv : ℤ) : String :=
  "Cannot generate edges between partitions " ++ toString u ++ " and "
    ++ toString v ++ " with sizes " ++ toString su ++ " and " ++ toString sv ++ "."

/-- First coverage loop (lines 188-191): every sampled u-vertex is joined
to one `rng.choice` of the sampled v-list; `choice` of an empty list is the
Python `IndexError`. -/
def coverU (r : EdgeRng) (sV : List ℤ) :
    List ℤ → ℕ → EGraph → Except String (ℕ × EGraph)
  | [], c, g => .ok (c, g)
  | su :: rest, c, g =>
    match r.choice c sV with
    | none => .error choiceEmptyErr
    | some sv => coverU r sV rest (c + 1) (g.addEdge su sv)

/-- Second coverage loop (lines 193-196): every sampled v-vertex is joined
to one `rng.choice` of the sampled u-list. -/
def coverV (r : EdgeRng) (sU : List ℤ) :
    List ℤ → ℕ → EGraph → Except String (ℕ × EGraph)
  | [], c, g => .ok (c, g)
  | sv :: rest, c, g =>
    match r.choice c sU with
    | none => .error choiceEmptyErr
    | some su => coverV r sU rest (c + 1) (g.addEdge su sv)

/-- Inner densification loop (lines 200-203): for a fixed sampled u-vertex,
walk the sampled v-list; an edge probe is drawn only for pairs not already
connected. -/
def densifyInner (r : EdgeRng) (su : ℤ) (prob : ℚ) :
    List ℤ → ℕ → EGraph → ℕ × EGraph
  | [], c, g => (c, g)
  | sv :: rest, c, g =>
    if g.hasEdge su sv then densifyInner r su prob rest c g
    else if r.rand c < prob then
      densifyInner r su prob rest (c + 1) (g.addEdge su sv)
    else densifyInner r su prob rest (c + 1) g

/-- Outer densification loop (line 199). -/
def densify (r : EdgeRng) (sV : List ℤ) (prob : ℚ) :
    List ℤ → ℕ → EGraph → ℕ × EGraph
  | [], c, g => (c, g)
  | su :: rest, c, g =>
    let p := densifyInner r su prob sV c g
    densify r sV prob rest p.1 p.2

/-- State threaded through the pair loop of `generate_edges`: the
`processed_pairs` set (as the list of insertions), the rng draw counter and
the expanded graph. -/
structure EGState where
  processed : List (ℕ × ℕ)
  c : ℕ
  g : EGraph

/-- Sampled u-side vertex list of a pair (line 185):
`sample_distinct_from_range(rng, start_u, size_u, send_vol_uv)`. -/
def pairSampleU (r : EdgeRng) (G : DiGraph) (sizes offs : List ℤ)
    (c : ℕ) (u v : ℕ) : List ℤ :=
  sampleDistinctFromRange r c (offs.getD u 0) (sizes.getD u 0) (G.w u v)

/-- Sampled v-side vertex list of a pair (line 186), with
`send_vol_vu = weight(v, u)` if the reverse edge exists else 0. -/
def pairSampleV (r : EdgeRng) (G : DiGraph) (sizes offs : List ℤ)
    (c : ℕ) (u v : ℕ) : List ℤ :=
  sampleDistinctFromRange r (c + 1) (offs.getD v 0) (sizes.getD v 0)
    (if G.hasEdge v u then G.w v u else 0)

/-- Body of the pair loop of `generate_edges` (lines 165-203): skip an
already-processed unordered pair, otherwise record it, fail on a zero-size
partition, sample both sides, run the two coverage loops and the
densification pass. -/
def processPair (r : EdgeRng) (G : DiGraph) (sizes offs : List ℤ) (prob : ℚ)
    (st : EGState) (u v : ℕ) : Except String EGState :=
  if st.processed.contains (u, v) || st.processed.contains (v, u) then .ok st
  else
    let processed := (u, v) :: st.processed
    let sizeU := sizes.getD u 0
    let sizeV := sizes.getD v 0
    if sizeU = 0 ∨ sizeV = 0 then
      .error (pairErrMsg u v sizeU sizeV)
    else
      let sU := pairSampleU r G sizes offs st.c u v
      let sV := pairSampleV r G sizes offs st.c u v
      match coverU r sV sU (st.c + 2) st.g with
      | .error e => .error e
      | .ok p1 =>
        match coverV r sU sV p1.1 p1.2 with
        | .error e => .error e
        | .ok p2 =>
          let p3 := densify r sV prob sU p2.1 p2.2
          .ok ⟨processed, p3.1, p3.2⟩

/-- Inner neighbour loop of `generate_edges` (line 165 onward). -/
def genEdgesInner (r : EdgeRng) (G : DiGraph) (sizes offs : List ℤ)
    (prob : ℚ) (u : ℕ) : List ℕ → EGState → Except String EGState
  | [], st => .ok st
  | v :: rest, st =>
    match processPair r G sizes offs prob st u v with
    | .error e => .error e
    | .ok st' => genEdgesInner r G sizes offs prob u rest st'

/-- Outer node loop of `generate_edges` (line 161 onward). -/
def genEdgesNodes (r : EdgeRng) (G : DiGraph) (sizes offs : List ℤ)
    (prob : ℚ) : List ℕ → EGState → Except String EGState
  | [], st => .ok st
  | u :: rest, st =>
    match genEdgesInner r G sizes offs prob u (G.adj u) st with
    | .error e => .error e
    | .ok st' => genEdgesNodes r G sizes offs prob rest st'

/-- Partition offset table of `generate_edges` (lines 153-157): exclusive
prefix sums of the partition sizes. -/
def partOffsets (sizes : List ℤ) : List ℤ :=
  (List.range sizes.length).map (fun u => ((sizes.take u).sum : ℤ))

/-- `generate_edges` (lines 152-205): process every directed edge's
unordered pair once and return the mutated expanded graph, or the first
raised error. -/
def generateEdges (gInit : EGraph) (sizes : List ℤ) (G : DiGraph)
    (prob : ℚ) (r : EdgeRng) : Except String EGraph :=
  match genEdgesNodes r G sizes (partOffsets sizes) prob
      (List.range G.numNodes) ⟨[], 0, gInit⟩ with
  | .error e => .error e
  | .ok st => .ok st.g

/-- Expanded graph with an explicit node set, as needed once
`removeNode` has been called: NetworKit `removeNode` deletes the node and
its incident edges but does NOT renumber the remaining nodes (their ids
keep gaps; `numberOfNodes` shrinks). -/
structure NGraph where
  nodes : List ℤ
  edges : List (ℤ × ℤ)
deriving DecidableEq

/-- NetworKit `degree(u) == 0` test used to find isolated nodes
(line 208): no incident edge record. -/
def NGraph.isIsolated (g : NGraph) (u : ℤ) : Bool :=
  g.edges.all (fun e => e.1 ≠ u ∧ e.2 ≠ u)

/-- `remove_isolated_nodes` (lines 207-223): remove every degree-0 node
(ids of the survivors are unchanged, per NetworKit semantics), then rebuild
the size array by counting, for each original partition range, the ids that
still exist. -/
def removeIsolatedNodes (g : NGraph) (sizes : List ℤ) : NGraph × List ℤ :=
  let g' : NGraph := ⟨g.nodes.filter (fun u => !g.isIsolated u), g.edges⟩
  let rec recount : List ℤ → ℤ → List ℤ
    | [], _ => []
    | size :: rest, offset =>
      (((List.range size.toNat).filter
          (fun i => g'.nodes.contains (offset + (i : ℤ)))).length : ℤ)
        :: recount rest (offset + size)
  (g', recount sizes 0)

/-- Partition-assignment array rebuilt by `generate_communication`
(lines 287-294): `size[pid]` consecutive entries `pid`, in process order
(the preallocated array has length `numberOfNodes`, which equals the sum of
the updated sizes, so the write loop fills exactly these entries). -/
def buildPartArray (sizes : List ℤ) : List ℕ :=
  (sizes.enum.map (fun p => List.replicate p.2.toNat p.1)).flatten

/-- Volume-assignment stage of the pipeline `generate_communication`
(lines 256-265): it owns the first seeded stream. -/
def pipelineVolumes (G : DiGraph) (maxVolume : ℤ) (mode : String) (skew : ℚ)
    (heavyTail : Bool) (targetMean : Option ℚ) (r1 : VolRng) (fp : FloatPow) :
    Except String (List ((ℕ × ℕ) × ℤ)) :=
  genMessageVolumes G maxVolume mode skew heavyTail targetMean r1 fp

/-- Partition-sizing stage of the pipeline (lines 267-273), applied to the
re-weighted graph: it owns the second seeded stream and does not consume
the third. -/
def pipelineSizes (G : DiGraph) (maxVolume : ℤ) (mode : String) (skew : ℚ)
    (heavyTail : Bool) (targetMean : Option ℚ) (meanPosition iskew : ℚ)
    (r1 : VolRng) (fp : FloatPow) (g2 : ℚ → ℚ → ℕ → ℚ) :
    Except String (List ℤ) :=
  match pipelineVolumes G maxVolume mode skew heavyTail targetMean r1 fp with
  | .error e => .error e
  | .ok vols => .ok (initializeGraph (applyVolumes G vols) meanPosition iskew g2)

/-- The composed core pipeline of `generate_communication` (lines 256-282):
volumes, then sizes, then edges, each stage drawing from its own stream;
the result pairs the expanded graph with the partition sizes. -/
def pipeline (G : DiGraph) (maxVolume : ℤ) (mode : String) (skew : ℚ)
    (heavyTail : Bool) (targetMean : Option ℚ) (meanPosition iskew : ℚ)
    (prob : ℚ) (r1 : VolRng) (fp : FloatPow) (g2 : ℚ → ℚ → ℕ → ℚ)
    (r3 : EdgeRng) : Except String (EGraph × List ℤ) :=
  match pipelineVolumes G maxVolume mode skew heavyTail targetMean r1 fp with
  | .error e => .error e
  | .ok vols =>
    let Gw := applyVolumes G vols
    let sizes := initializeGraph Gw meanPosition iskew g2
    match generateEdges ⟨sizes.sum.toNat, []⟩ sizes Gw prob r3 with
    | .error e => .error e
    | .ok g => .ok (g, sizes)

/-- Whether an `Except` result is a success. -/
def exceptIsOk (res : Except String EGraph) : Bool :=
  match res with
  | .ok _ => true
  | .error _ => false

/-- Multiplicity of an unordered edge in a `generate_edges` result
(0 on error). -/
def edgeMultOfResult (res : Except String EGraph) (a b : ℤ) : ℕ :=
  match res with
  | .ok g => edgeMult g a b
  | .error _ => 0

/-- NetworKit `numberOfEdges()` of a `generate_edges` result (counting
parallel records, 0 on error). -/
def numEdgesOfResult (res : Except String EGraph) : ℕ :=
  match res with
  | .ok g => g.edges.length
  | .error _ => 0

/-- Decidable (bounded) check that an edge record joins two different
partition ranges: some pair of distinct process ids whose ranges contain
the two endpoints. -/
def interPartB (sizes : List ℤ) (e : ℤ × ℤ) : Bool :=
  (List.range sizes.length).any (fun u =>
    (List.range sizes.length).any (fun v =>
      u ≠ v
        ∧ (partOffsets sizes).getD u 0 ≤ e.1
        ∧ e.1 < (partOffsets sizes).getD u 0 + sizes.getD u 0
        ∧ (partOffsets sizes).getD v 0 ≤ e.2
        ∧ e.2 < (partOffsets sizes).getD v 0 + sizes.getD v 0))

/-- Every edge of a successful `generate_edges` result joins two different
partition ranges (vacuously true on error, where no graph is returned). -/
def allInterPart (res : Except String EGraph) (sizes : List ℤ) : Bool :=
  match res with
  | .ok g => g.edges.all (interPartB sizes)
  | .error _ => true

/-- Decidable statement of the spec's scenario A for the expanded graph:
every one of the 15 bipartite pairs between the partition ranges `[0, 5)`
and `[5, 8)` is connected, and every edge record joins those two ranges in
that orientation (false on error). -/
def completeBipartite53 : Except String EGraph → Bool
  | .error _ => false
  | .ok g =>
    ((List.range 5).all fun a => (List.range 3).all fun b =>
        g.hasEdge (a : ℤ) (5 + (b : ℤ)))
    && g.edges.all fun e => decide (0 ≤ e.1 ∧ e.1 < 5 ∧ 5 ≤ e.2 ∧ e.2 < 8)

/-- All assigned volumes of a `gen_message_volumes` result lie in
`[1, maxVolume]` (false on error). -/
def volsInRange (res : Except String (List ((ℕ × ℕ) × ℤ))) (maxVolume : ℤ) :
    Bool :=
  match res with
  | .ok l => l.all (fun p => 1 ≤ p.2 ∧ p.2 ≤ maxVolume)
  | .error _ => false

/-- All raw (pre-rescaling) volumes of the first pass lie in
`[1, maxVolume]` (false on error). -/
def rawInRange (res : Except String (List ℤ)) (maxVolume : ℤ) : Bool :=
  match res with
  | .ok l => l.all (fun v => 1 ≤ v ∧ v ≤ maxVolume)
  | .error _ => false

/-- Concrete deterministic stream used to exhibit particular runs:
`sample` returns the first `k` elements of the range, `choice` the head of
the sequence, `random()` always 0. -/
def cRng : EdgeRng :=
  ⟨fun _ start _ k => (List.range k).map (fun i : ℕ => start + (i : ℤ)),
   fun _ l => l.head?,
   fun _ => 0⟩

/-- Concrete volume stream: `random()` always 0, `lognormvariate` always 1. -/
def cVR : VolRng := ⟨fun _ => 0, fun _ _ => 1⟩

/-- Concrete power model: ignore the exponent (the identity on the base
satisfies the range guarantee). -/
def cFP : FloatPow := ⟨fun x _ => x⟩

/-- Concrete gauss stream drawing 0 forever. -/
def zeroGauss : ℚ → ℚ → ℕ → ℚ := fun _ _ _ => 0

/-- Two processes communicating in both directions with volume 1 each. -/
def G2sym : DiGraph :=
  ⟨2, fun u => if u = 0 then [1] else if u = 1 then [0] else [], fun _ _ => 1⟩

/-- Two processes with a single directed edge `0 → 1` of volume 1 (the
reverse edge is absent). -/
def G1one : DiGraph :=
  ⟨2, fun u => if u = 0 then [1] else [], fun _ _ => 1⟩

/-- Concrete scenario A of the spec: volumes `0 → 1` of 5 and `1 → 0`
of 3. -/
def G45 : DiGraph :=
  ⟨2, fun u => if u = 0 then [1] else if u = 1 then [0] else [],
   fun u _ => if u = 0 then 5 else 3⟩

/-- One process with a self-loop of volume 1. -/
def Gloop : DiGraph := ⟨1, fun u => if u = 0 then [0] else [], fun _ _ => 1⟩

/-- One process and no edge at all. -/
def GnoEdge : DiGraph := ⟨1, fun _ => [], fun _ _ => 0⟩

/-! ### Basic lemmas about the embedded primitives -/

/-- On non-negative rationals Python truncation agrees with the floor. -/
lemma pyInt_of_nonneg (q : ℚ) (h : 0 ≤ q) : pyInt q = Int.floor q := by
  simp [pyInt, not_lt.mpr h]

/-- Truncation of a value in `[0, hi]` (with `hi` an integer) stays in
`[0, hi]`. -/
lemma pyInt_bounds (q : ℚ) (hi : ℤ) (h0 : 0 ≤ q) (h1 : q ≤ (hi : ℚ)) :
    0 ≤ pyInt q ∧ pyInt q ≤ hi := by
  rw [pyInt_of_nonneg q h0]
  constructor
  · exact Int.le_floor.mpr (by exact_mod_cast h0)
  · calc Int.floor q ≤ Int.floor (hi : ℚ) := Int.floor_le_floor h1
      _ = hi := Int.floor_intCast hi

/-- A truncated-normal sample always lies in `[0, 1]`, by acceptance or by
the clamping fallback. -/
lemma sampleTruncNormal01_mem (g : ℚ → ℚ → ℕ → ℚ) (m sigma : ℚ) :
    ∀ fuel c, 0 ≤ (sampleTruncNormal01 g m sigma fuel c).1
      ∧ (sampleTruncNormal01 g m sigma fuel c).1 ≤ 1 := by
  intro fuel
  induction fuel with
  | zero =>
    intro c
    constructor
    · exact le_max_left 0 _
    · simp [sampleTruncNormal01]
  | succ n ih =>
    intro c
    by_cases h : 0 ≤ g m sigma c ∧ g m sigma c ≤ 1
    · simp [sampleTruncNormal01, h]
    · simpa [sampleTruncNormal01, h] using ih (c + 1)

/-- A left fold of `min` is bounded by its initial value. -/
lemma foldl_min_le_init (xs : List ℤ) : ∀ x : ℤ, xs.foldl min x ≤ x := by
  induction xs with
  | nil => intro x; simp
  | cons y ys ih =>
    intro x
    calc List.foldl min (min x y) ys ≤ min x y := ih (min x y)
      _ ≤ x := min_le_left x y

/-- A left fold of `min` is its initial value or a list element. -/
lemma foldl_min_mem (xs : List ℤ) : ∀ x : ℤ,
    xs.foldl min x = x ∨ xs.foldl min x ∈ xs := by
  induction xs with
  | nil => intro x; left; rfl
  | cons y ys ih =>
    intro x
    rcases ih (min x y) with h | h
    · rw [List.foldl_cons, h]
      rcases min_choice x y with h' | h'
      · left; exact h'
      · right; rw [h']; exact List.mem_cons_self y ys
    · right; exact List.mem_cons_of_mem y h

/-- `pyMin` of a non-empty list is an element of it. -/
lemma pyMin_mem (l : List ℤ) (h : l ≠ []) : pyMin l ∈ l := by
  match l with
  | x :: xs =>
    rcases foldl_min_mem xs x with h' | h'
    · rw [pyMin, h']; exact List.mem_cons_self x xs
    · exact List.mem_cons_of_mem x h'

/-- `pyMin` of a non-empty list of non-negatives is at most the sum. -/
lemma pyMin_le_sum (l : List ℤ) (h : l ≠ []) (hpos : ∀ x ∈ l, 0 ≤ x) :
    pyMin l ≤ l.sum := by
  match l with
  | x :: xs =>
    have h1 : pyMin (x :: xs) ≤ x := foldl_min_le_init xs x
    have h2 : 0 ≤ xs.sum :=
      List.sum_nonneg (fun y hy => hpos y (List.mem_cons_of_mem x hy))
    calc pyMin (x :: xs) ≤ x := h1
      _ ≤ x + xs.sum := le_add_of_nonneg_right h2
      _ = (x :: xs).sum := by simp

/-- A left fold of `min` is bounded by every list element. -/
lemma foldl_min_le_mem (xs : List ℤ) : ∀ (x : ℤ), ∀ y ∈ xs, xs.foldl min x ≤ y := by
  induction xs with
  | nil => intro x y hy; cases hy
  | cons z zs ih =>
    intro x y hy
    rcases List.mem_cons.mp hy with rfl | hy
    · calc List.foldl min (min x y) zs ≤ min x y := foldl_min_le_init zs _
        _ ≤ y := min_le_right x y
    · exact ih (min x z) y hy

/-- `pyMin` bounds every element from below. -/
lemma pyMin_le_mem (l : List ℤ) : ∀ x ∈ l, pyMin l ≤ x := by
  match l with
  | [] => intro x hx; cases hx
  | y :: ys =>
    intro x hx
    rcases List.mem_cons.mp hx with rfl | hx
    · exact foldl_min_le_init ys x
    · exact foldl_min_le_mem ys y x hx

/-! ### Lemmas about the expanded multigraph -/

/-- Adding an edge only appends to the record list. -/
lemma addEdge_sublist (g : EGraph) (a b : ℤ) :
    g.edges.Sublist (g.addEdge a b).edges := by
  simp [EGraph.addEdge]

/-- Bridge between boolean `contains` and membership. -/
lemma containsE {α : Type} [BEq α] [LawfulBEq α] (l : List α) (a : α) :
    l.contains a = true ↔ a ∈ l := by
  simp [List.contains]

/-- Edge existence is monotone along record-list extension. -/
lemma hasEdge_mono {g g' : EGraph} (h : g.edges.Sublist g'.edges) {a b : ℤ}
    (he : g.hasEdge a b = true) : g'.hasEdge a b = true := by
  simp only [EGraph.hasEdge, Bool.or_eq_true, containsE] at he
  simp only [EGraph.hasEdge, Bool.or_eq_true]
  rcases he with he | he
  · exact Or.inl ((containsE _ _).mpr (h.subset he))
  · exact Or.inr ((containsE _ _).mpr (h.subset he))

/-- Unfolding of the multiplicity count over an `addEdge`. -/
lemma edgeMult_addEdge (g : EGraph) (x y a b : ℤ) :
    edgeMult (g.addEdge x y) a b
      = edgeMult g a b + (if (x, y) = (a, b) ∨ (x, y) = (b, a) then 1 else 0) := by
  simp only [edgeMult, EGraph.addEdge, List.filter_append, List.length_append]
  congr 1
  by_cases h : (x, y) = (a, b) ∨ (x, y) = (b, a)
  · rw [if_pos h]
    rcases h with h | h <;> simp [List.filter_cons, h]
  · rw [if_neg h]
    push_neg at h
    simp [List.filter_cons, h.1, h.2]

/-- Multiplicity is symmetric in the two endpoints. -/
lemma edgeMult_comm (g : EGraph) (a b : ℤ) : edgeMult g a b = edgeMult g b a := by
  simp only [edgeMult]
  congr 1
  apply List.filter_congr
  intro e _
  simp [or_comm]

/-- An absent edge is exactly a zero multiplicity. -/
lemma hasEdge_false_iff (g : EGraph) (a b : ℤ) :
    g.hasEdge a b = false ↔ edgeMult g a b = 0 := by
  simp only [EGraph.hasEdge, Bool.or_eq_false_iff, edgeMult, List.length_eq_zero,
    List.filter_eq_nil_iff, List.contains, List.elem_eq_mem,
    decide_eq_false_iff_not, decide_eq_true_eq, not_or]
  constructor
  · rintro ⟨h1, h2⟩ e he
    constructor
    · intro he1; exact h1 (he1 ▸ he)
    · intro he2; exact h2 (he2 ▸ he)
  · intro h
    constructor
    · intro hmem; exact (h _ hmem).1 rfl
    · intro hmem; exact (h _ hmem).2 rfl

/-- Invariant of the inner densification loop: it only adds an edge whose
current multiplicity is zero, so it never pushes a pair's multiplicity
above `max (previous, 1)`. -/
lemma densifyInner_mult_bound (r : EdgeRng) (su : ℤ) (prob : ℚ) (M : ℤ → ℤ → ℕ) :
    ∀ (sV : List ℤ) (c : ℕ) (g : EGraph),
      (∀ a b, edgeMult g a b ≤ max (M a b) 1) →
      ∀ a b, edgeMult (densifyInner r su prob sV c g).2 a b ≤ max (M a b) 1 := by
  intro sV
  induction sV with
  | nil => intro c g hg a b; simpa [densifyInner] using hg a b
  | cons sv rest ih =>
    intro c g hg a b
    by_cases h : g.hasEdge su sv = true
    · simpa [densifyInner, h] using ih c g hg a b
    · have h' : g.hasEdge su sv = false := by
        cases hh : g.hasEdge su sv
        · rfl
        · exact absurd hh h
      have hz : edgeMult g su sv = 0 := (hasEdge_false_iff g su sv).mp h'
      by_cases hp : r.rand c < prob
      · have hg' : ∀ a b, edgeMult (g.addEdge su sv) a b ≤ max (M a b) 1 := by
          intro a b
          rw [edgeMult_addEdge]
          by_cases he : (su, sv) = (a, b) ∨ (su, sv) = (b, a)
          · rw [if_pos he]
            have hzab : edgeMult g a b = 0 := by
              rcases he with he | he
              · injection he with h1 h2; subst h1; subst h2; exact hz
              · injection he with h1 h2; subst h1; subst h2
                rw [edgeMult_comm]; exact hz
            omega
          · rw [if_neg he]
            simpa using hg a b
        simpa [densifyInner, h', hp] using ih (c + 1) (g.addEdge su sv) hg' a b
      · simpa [densifyInner, h', hp] using ih (c + 1) g hg a b

/-- Invariant of the outer densification loop. -/
lemma densify_mult_bound (r : EdgeRng) (prob : ℚ) (sV : List ℤ) (M : ℤ → ℤ → ℕ) :
    ∀ (sU : List ℤ) (c : ℕ) (g : EGraph),
      (∀ a b, edgeMult g a b ≤ max (M a b) 1) →
      ∀ a b, edgeMult (densify r sV prob sU c g).2 a b ≤ max (M a b) 1 := by
  intro sU
  induction sU with
  | nil => intro c g hg a b; simpa [densify] using hg a b
  | cons su rest ih =>
    intro c g hg a b
    have hInner := densifyInner_mult_bound r su prob M sV c g hg
    simpa [densify] using
      ih (densifyInner r su prob sV c g).1 (densifyInner r su prob sV c g).2
        hInner a b

/-! ### Claim C3 -/

/-- Claim C3, counterexample: with two processes communicating in both
directions with volume 1 and partition sizes 1, the two coverage loops of
`generate_edges` add the same undirected edge twice (NetworKit `addEdge`
does not deduplicate), so the returned graph connects fine vertices 0 and 1
by TWO parallel edges, refuting "at most one edge". -/
theorem coverage_pass_duplicates_edge :
    edgeMultOfResult (generateEdges ⟨2, []⟩ [1, 1] G2sym (1/2) cRng) 0 1 = 2 := by
  decide

/-- Claim C3 (amended): adding an already-present edge is a no-op only in
the densification pass, which checks `hasEdge` before every insertion and
therefore never raises the multiplicity of any vertex pair above
`max (multiplicity before the pass, 1)`; the coverage passes add their
edges unconditionally and can create parallel edges (see the
counterexample). -/
theorem densification_never_duplicates (r : EdgeRng) (sV : List ℤ) (prob : ℚ)
    (sU : List ℤ) (c : ℕ) (g : EGraph) (a b : ℤ) :
    edgeMult (densify r sV prob sU c g).2 a b ≤ max (edgeMult g a b) 1 :=
  densify_mult_bound r prob sV (edgeMult g) sU c g (fun _ _ => le_max_left _ _) a b

/-! ### Claim C6 -/

/-- Claim C6: the claim asserts that after `remove_isolated_nodes` the
surviving fine vertices occupy the dense id range `[0, final count)` and
that the partition array rebuilt from the updated sizes maps each surviving
vertex id to its process.  NetworKit `removeNode` does not renumber: on the
3-vertex graph with sizes `[1, 2]` and single edge `{1, 2}`, vertex 0 is
removed and the survivors keep ids `{1, 2}`, so a surviving id (2) lies at
or beyond the rebuilt partition array's length (2) and has no entry in
it. -/
theorem remove_isolated_keeps_original_ids :
    (removeIsolatedNodes ⟨[0, 1, 2], [(1, 2)]⟩ [1, 2]).1.nodes = [1, 2]
    ∧ (removeIsolatedNodes ⟨[0, 1, 2], [(1, 2)]⟩ [1, 2]).2 = [0, 2]
    ∧ buildPartArray (removeIsolatedNodes ⟨[0, 1, 2], [(1, 2)]⟩ [1, 2]).2 = [1, 1]
    ∧ ((removeIsolatedNodes ⟨[0, 1, 2], [(1, 2)]⟩ [1, 2]).1.nodes.any
        (fun v => decide
          (((buildPartArray (removeIsolatedNodes ⟨[0, 1, 2], [(1, 2)]⟩ [1, 2]).2).length : ℤ)
            ≤ v))) = true := by
  decide

/-! ### Claim C7 -/

/-- Claim C7, counterexample: on a graph with no edge at all, an invalid
mode string does NOT raise: the sampling loop body never runs, so
`gen_message_volumes` returns successfully instead of failing with a
`ValueError`. -/
theorem invalid_mode_silent_on_edgeless_graph :
    genMessageVolumes GnoEdge 10 "uniform" 1 false none cVR cFP = .ok [] := rfl

/-- Claim C7 (amended): for every input graph with AT LEAST ONE edge and
every mode other than `power` and `lognormal`, `gen_message_volumes` fails
with the invalid-configuration `ValueError` raised in the first loop
iteration — before any random draw and before any weight assignment is
produced (the result is the same for every random stream and carries no
assignments); on an edgeless graph it instead returns with no edge
touched. -/
theorem invalid_mode_errors (G : DiGraph) (maxVolume : ℤ) (skew : ℚ)
    (heavyTail : Bool) (targetMean : Option ℚ) (mode : String)
    (r : VolRng) (fp : FloatPow)
    (hne : G.iterEdges ≠ []) (hp : mode ≠ "power") (hl : mode ≠ "lognormal") :
    genMessageVolumes G maxVolume mode skew heavyTail targetMean r fp
      = .error volModeErr := by
  unfold genMessageVolumes
  cases h : G.iterEdges with
  | nil => exact absurd h hne
  | cons e rest => simp [rawVolumes, hp, hl]

/-- Witness for the amended C7 theorem on a concrete one-edge graph and the
mode string of the spec's scenario C. -/
theorem invalid_mode_errors_witness :
    genMessageVolumes G1one 10 "uniform" 1 false none cVR cFP
      = .error volModeErr :=
  invalid_mode_errors G1one 10 1 false none "uniform" cVR cFP
    (by decide) (by decide) (by decide)

/-! ### Claim C8 -/

/-- Claim C8: whenever the pair loop of `generate_edges` reaches an
unprocessed communicating pair one of whose partitions has size 0, it
raises the inconsistency `ValueError` — for every random stream (so before
any sampling) and without adding any edge; such a pair is never silently
skipped. -/
theorem zero_size_pair_errors (r : EdgeRng) (G : DiGraph) (sizes offs : List ℤ)
    (prob : ℚ) (st : EGState) (u v : ℕ)
    (h1 : st.processed.contains (u, v) = false)
    (h2 : st.processed.contains (v, u) = false)
    (h0 : sizes.getD u 0 = 0 ∨ sizes.getD v 0 = 0) :
    processPair r G sizes offs prob st u v
      = .error (pairErrMsg u v (sizes.getD u 0) (sizes.getD v 0)) := by
  unfold processPair
  rw [h1, h2, Bool.or_self, if_neg Bool.false_ne_true]
  simp only []
  rw [if_pos h0]

/-- Witness for the C8 theorem: process 0 communicates with process 1 but
partition 0 has no fine vertices. -/
theorem zero_size_pair_errors_witness :
    processPair cRng G1one [0, 1] [0, 0] (1/2) ⟨[], 0, ⟨1, []⟩⟩ 0 1
      = .error (pairErrMsg 0 1 0 1) :=
  zero_size_pair_errors cRng G1one [0, 1] [0, 0] (1/2) ⟨[], 0, ⟨1, []⟩⟩ 0 1
    rfl rfl (Or.inl rfl)

/-! ### Claim C1, counterexample -/

/-- Claim C1, counterexample: two processes with only the directed edge
`0 → 1` (volume 1) and both partition sizes positive.  The opposite sample
is empty (`vol_vu = 0`), and the first coverage loop calls `rng.choice` on
the empty sequence: `generate_edges` aborts with an unhandled `IndexError`
instead of processing the pair to completion. -/
theorem missing_reverse_edge_raises :
    generateEdges ⟨2, []⟩ [1, 1] G1one (1/2) cRng = .error choiceEmptyErr := rfl

/-! ### Claim C4, counterexample -/

/-- Claim C4, counterexample: in the spec's scenario A (volumes 5 and 3,
`edge_connection_prob = 1.0`) there is a seed for which the coverage passes
duplicate an edge, so the returned graph has 16 edge records, not exactly
15: the edge count is not 15 independent of seed. -/
theorem scenario_a_sixteen_edges :
    numEdgesOfResult (generateEdges ⟨8, []⟩ [5, 3] G45 1 cRng) = 16 := by
  decide

/-! ### Claim C9, counterexample -/

/-- Claim C9, counterexample: a process graph with the self-loop `0 → 0`
makes `generate_edges` sample both sides of the pair `{0, 0}` from the same
partition range and wire them: the result contains the intra-partition
(self-loop) edge `(0, 0)`, refuting "no intra-partition edges" for graphs
with self-loops. -/
theorem self_loop_creates_intra_partition_edge :
    generateEdges ⟨1, []⟩ [1] Gloop (1/2) cRng = .ok ⟨1, [(0, 0), (0, 0)]⟩
    ∧ allInterPart (generateEdges ⟨1, []⟩ [1] Gloop (1/2) cRng) [1] = false :=
  ⟨rfl, by decide⟩

/-! ### Claim C10 -/

/-- The partition-size component of a successful pipeline run is the
stage-2 output, which consumes only the first two streams. -/
lemma pipeline_snd_eq_sizes (G : DiGraph) (maxVolume : ℤ) (mode : String)
    (skew : ℚ) (heavyTail : Bool) (targetMean : Option ℚ)
    (meanPosition iskew prob : ℚ) (r1 : VolRng) (fp : FloatPow)
    (g2 : ℚ → ℚ → ℕ → ℚ) (r3 : EdgeRng) (p : EGraph × List ℤ)
    (hp : pipeline G maxVolume mode skew heavyTail targetMean meanPosition
        iskew prob r1 fp g2 r3 = .ok p) :
    pipelineSizes G maxVolume mode skew heavyTail targetMean meanPosition
      iskew r1 fp g2 = .ok p.2 := by
  unfold pipeline at hp
  unfold pipelineSizes
  cases hv : pipelineVolumes G maxVolume mode skew heavyTail targetMean r1 fp with
  | error e => rw [hv] at hp; cases hp
  | ok vols =>
    rw [hv] at hp
    simp only [] at hp
    cases hg : generateEdges
        ⟨(initializeGraph (applyVolumes G vols) meanPosition iskew g2).sum.toNat, []⟩
        (initializeGraph (applyVolumes G vols) meanPosition iskew g2)
        (applyVolumes G vols) prob r3 with
    | error e => rw [hg] at hp; cases hp
    | ok g =>
      rw [hg] at hp
      injection hp with hp
      rw [← hp]

/-- Claim C10: two-run determinism and stage independence of the pipeline.
Each stage is a pure function of its inputs and its own stream, exactly as
each Python stage builds its own `random.Random(seed)`: a run is reproduced
verbatim by a second run with the same streams, and the partition-size
output agrees between two runs that differ only in the edge-building
stream (the sizes are the stage-2 output, which does not consume the third
stream). -/
theorem pipeline_deterministic (G : DiGraph) (maxVolume : ℤ) (mode : String)
    (skew : ℚ) (heavyTail : Bool) (targetMean : Option ℚ)
    (meanPosition iskew prob : ℚ) (r1 : VolRng) (fp : FloatPow)
    (g2 : ℚ → ℚ → ℕ → ℚ) (r3 r3' : EdgeRng) :
    (pipeline G maxVolume mode skew heavyTail targetMean meanPosition iskew
        prob r1 fp g2 r3
      = pipeline G maxVolume mode skew heavyTail targetMean meanPosition iskew
        prob r1 fp g2 r3)
    ∧ (∀ p, pipeline G maxVolume mode skew heavyTail targetMean meanPosition
          iskew prob r1 fp g2 r3 = .ok p →
        pipelineSizes G maxVolume mode skew heavyTail targetMean meanPosition
          iskew r1 fp g2 = .ok p.2)
    ∧ (∀ p p', pipeline G maxVolume mode skew heavyTail targetMean meanPosition
          iskew prob r1 fp g2 r3 = .ok p →
        pipeline G maxVolume mode skew heavyTail targetMean meanPosition iskew
          prob r1 fp g2 r3' = .ok p' →
        p.2 = p'.2) := by
  refine ⟨rfl, ?_, ?_⟩
  · intro p hp
    exact pipeline_snd_eq_sizes G maxVolume mode skew heavyTail targetMean
      meanPosition iskew prob r1 fp g2 r3 p hp
  · intro p p' hp hp'
    have h1 := pipeline_snd_eq_sizes G maxVolume mode skew heavyTail targetMean
      meanPosition iskew prob r1 fp g2 r3 p hp
    have h2 := pipeline_snd_eq_sizes G maxVolume mode skew heavyTail targetMean
      meanPosition iskew prob r1 fp g2 r3' p' hp'
    rw [h1] at h2
    injection h2

/-- Witness for C10 on a concrete run: the pipeline succeeds and the
partition-size output of the run is recovered by the r3-free stage-2
computation. -/
theorem pipeline_deterministic_witness :
    pipelineSizes GnoEdge 1 "power" 1 false none 0 0 cVR cFP zeroGauss
      = .ok [0] :=
  (pipeline_deterministic GnoEdge 1 "power" 1 false none 0 0 1 cVR cFP
    zeroGauss cRng cRng).2.1 (⟨0, []⟩, [0]) (by rfl)

/-! ### Claim C2 -/

/-- Element access into the range list. -/
lemma range_getD (n u : ℕ) (h : u < n) : (List.range n).getD u 0 = u := by
  simp [List.getD_eq_getElem?_getD, List.getElem?_range, h]

/-- The `u`-th entry of the threaded per-process loop is the body applied
to the `u`-th node at some draw counter. -/
lemma initNodes_getD (G : DiGraph) (g : ℚ → ℚ → ℕ → ℚ) (m01 sigma : ℚ) :
    ∀ (l : List ℕ) (c : ℕ) (u : ℕ), u < l.length →
      ∃ c', (initNodes G g m01 sigma l c).1.getD u 0
        = (initNode G g m01 sigma (l.getD u 0) c').1 := by
  intro l
  induction l with
  | nil => intro c u h; cases h
  | cons x xs ih =>
    intro c u h
    cases u with
    | zero => exact ⟨c, by simp [initNodes]⟩
    | succ n =>
      obtain ⟨c', hc⟩ := ih (initNode G g m01 sigma x c).2 n
        (by simpa using Nat.lt_of_succ_lt_succ h)
      exact ⟨c', by simpa [initNodes] using hc⟩

/-- A process with no outgoing edge gets size 0. -/
lemma initNode_empty (G : DiGraph) (g : ℚ → ℚ → ℕ → ℚ) (m01 sigma : ℚ)
    (u c : ℕ) (h : G.adj u = []) : (initNode G g m01 sigma u c).1 = 0 := by
  unfold initNode
  simp [outWeights, h]

/-- A process with outgoing edges of weight at least 1 gets a size between
the minimum outgoing weight and their sum. -/
lemma initNode_bounds (G : DiGraph) (g : ℚ → ℚ → ℕ → ℚ) (m01 sigma : ℚ)
    (u c : ℕ) (hne : G.adj u ≠ [])
    (hw : ∀ x ∈ outWeights G u, 1 ≤ x) :
    pyMin (outWeights G u) ≤ (initNode G g m01 sigma u c).1
    ∧ (initNode G g m01 sigma u c).1 ≤ (outWeights G u).sum := by
  have hne' : outWeights G u ≠ [] := by
    simpa [outWeights] using hne
  unfold initNode
  rw [if_neg (by simpa [List.isEmpty_iff] using hne')]
  have hmin1 : 1 ≤ pyMin (outWeights G u) := hw _ (pyMin_mem _ hne')
  have hminsum : pyMin (outWeights G u) ≤ (outWeights G u).sum :=
    pyMin_le_sum _ hne' (fun x hx => le_trans zero_le_one (hw x hx))
  by_cases hm : (outWeights G u).sum ≤ pyMin (outWeights G u)
  · rw [if_pos hm]
    exact ⟨le_refl _, hminsum⟩
  · rw [if_neg hm]
    dsimp only
    push_neg at hm
    have hx01 := sampleTruncNormal01_mem g m01 sigma 50 c
    have hdiff : (0 : ℚ) ≤ ((outWeights G u).sum : ℚ) - (pyMin (outWeights G u) : ℚ) := by
      have := hm.le
      have : ((pyMin (outWeights G u) : ℚ)) ≤ ((outWeights G u).sum : ℚ) := by
        exact_mod_cast this
      linarith
    have hlow : ((pyMin (outWeights G u) : ℚ))
        ≤ (pyMin (outWeights G u) : ℚ)
          + (sampleTruncNormal01 g m01 sigma 50 c).1
            * (((outWeights G u).sum : ℚ) - (pyMin (outWeights G u) : ℚ)) := by
      nlinarith [hx01.1, hdiff]
    have hhigh : (pyMin (outWeights G u) : ℚ)
          + (sampleTruncNormal01 g m01 sigma 50 c).1
            * (((outWeights G u).sum : ℚ) - (pyMin (outWeights G u) : ℚ))
        ≤ ((outWeights G u).sum : ℚ) := by
      nlinarith [hx01.2, hdiff]
    have hpos : (0 : ℚ)
        ≤ (pyMin (outWeights G u) : ℚ)
          + (sampleTruncNormal01 g m01 sigma 50 c).1
            * (((outWeights G u).sum : ℚ) - (pyMin (outWeights G u) : ℚ)) := by
      have h1 : (0 : ℚ) ≤ (pyMin (outWeights G u) : ℚ) := by
        exact_mod_cast le_trans zero_le_one hmin1
      linarith
    rw [pyInt_of_nonneg _ hpos]
    constructor
    · exact Int.le_floor.mpr hlow
    · calc Int.floor ((pyMin (outWeights G u) : ℚ)
            + (sampleTruncNormal01 g m01 sigma 50 c).1
              * (((outWeights G u).sum : ℚ) - (pyMin (outWeights G u) : ℚ)))
          ≤ Int.floor (((outWeights G u).sum : ℚ)) := Int.floor_le_floor hhigh
        _ = (outWeights G u).sum := Int.floor_intCast _

/-- Claim C2: for a weighted directed graph whose edge weights are positive
integers and for every mean position, skew and gauss stream,
`initialize_graph` gives every process with outgoing edges a partition size
in `[min outgoing volume, sum of outgoing volumes]`, and every process
without outgoing edges the size 0. -/
theorem initialize_graph_size_bounds (G : DiGraph) (meanPosition skew : ℚ)
    (g : ℚ → ℚ → ℕ → ℚ) (u : ℕ) (hu : u < G.numNodes)
    (hw : ∀ v ∈ G.adj u, 1 ≤ G.w u v) :
    (G.adj u = [] → (initializeGraph G meanPosition skew g).getD u 0 = 0)
    ∧ (G.adj u ≠ [] →
        pyMin (outWeights G u) ≤ (initializeGraph G meanPosition skew g).getD u 0
        ∧ (initializeGraph G meanPosition skew g).getD u 0 ≤ (outWeights G u).sum) := by
  have hw' : ∀ x ∈ outWeights G u, 1 ≤ x := by
    intro x hx
    obtain ⟨v, hv, rfl⟩ := List.mem_map.mp hx
    exact hw v hv
  obtain ⟨c', hc⟩ := initNodes_getD G g
    ((max (-1) (min 1 meanPosition) + 1) / 2) (2/100 + 25/100 * max 0 skew)
    (List.range G.numNodes) 0 u (by simpa using hu)
  rw [range_getD G.numNodes u hu] at hc
  have heq : (initializeGraph G meanPosition skew g).getD u 0
      = (initNode G g ((max (-1) (min 1 meanPosition) + 1) / 2)
          (2/100 + 25/100 * max 0 skew) u c').1 := by
    unfold initializeGraph
    exact hc
  constructor
  · intro hadj
    rw [heq]
    exact initNode_empty G g _ _ u c' hadj
  · intro hadj
    rw [heq]
    exact initNode_bounds G g _ _ u c' hadj hw'

/-- Witness for C2 at process 0 of the scenario-A graph: its single
outgoing volume is 5, and the computed size is pinched to 5. -/
theorem initialize_graph_size_bounds_witness :
    pyMin (outWeights G45 0) ≤ (initializeGraph G45 0 0 zeroGauss).getD 0 0
    ∧ (initializeGraph G45 0 0 zeroGauss).getD 0 0 ≤ (outWeights G45 0).sum :=
  (initialize_graph_size_bounds G45 0 0 zeroGauss 0 (by decide)
    (by decide)).2 (by decide)

/-! ### Claim C5 -/

/-- The concrete volume stream satisfies the draw guarantees. -/
lemma cVR_valid : cVR.Valid :=
  ⟨fun _ => by norm_num [cVR], fun _ _ => by norm_num [cVR]⟩

/-- The concrete power model satisfies the range guarantee. -/
lemma cFP_valid : cFP.Valid := fun _ _ hx hx1 _ => ⟨hx, hx1⟩

/-- A `power`-branch volume lies in `[1, max_volume]` for every skew and
heavy-tail flag. -/
lemma powVol_bounds (fp : FloatPow) (r : VolRng) (c : ℕ) (skew : ℚ)
    (heavyTail : Bool) (maxVolume : ℤ) (hr : r.Valid) (hfp : fp.Valid)
    (hmv : 1 ≤ maxVolume) :
    1 ≤ powVol fp r c skew heavyTail maxVolume
    ∧ powVol fp r c skew heavyTail maxVolume ≤ maxVolume := by
  obtain ⟨hx0, hx1⟩ := hr.1 c
  have hk : (0 : ℚ) < max (1/1000000) skew :=
    lt_of_lt_of_le (by norm_num) (le_max_left _ _)
  have hx' : 0 ≤ (if heavyTail then 1 - fp.pow (1 - r.unif c) (max (1/1000000) skew)
        else fp.pow (r.unif c) (max (1/1000000) skew))
      ∧ (if heavyTail then 1 - fp.pow (1 - r.unif c) (max (1/1000000) skew)
        else fp.pow (r.unif c) (max (1/1000000) skew)) ≤ 1 := by
    cases heavyTail with
    | false =>
      simpa using hfp (r.unif c) (max (1/1000000) skew) hx0 hx1.le hk
    | true =>
      have hb := hfp (1 - r.unif c) (max (1/1000000) skew)
        (by linarith) (by linarith) hk
      constructor <;> simp <;> linarith [hb.1, hb.2]
  have hmv' : (0 : ℚ) ≤ (maxVolume : ℚ) - 1 := by
    have : (1 : ℚ) ≤ (maxVolume : ℚ) := by exact_mod_cast hmv
    linarith
  have hq0 : (0 : ℚ) ≤ (if heavyTail then 1 - fp.pow (1 - r.unif c) (max (1/1000000) skew)
        else fp.pow (r.unif c) (max (1/1000000) skew)) * ((maxVolume : ℚ) - 1) :=
    mul_nonneg hx'.1 hmv'
  have hq1 : (if heavyTail then 1 - fp.pow (1 - r.unif c) (max (1/1000000) skew)
        else fp.pow (r.unif c) (max (1/1000000) skew)) * ((maxVolume : ℚ) - 1)
      ≤ ((maxVolume - 1 : ℤ) : ℚ) := by
    push_cast
    nlinarith [hx'.2, hmv']
  have hb := pyInt_bounds _ (maxVolume - 1) hq0 hq1
  unfold powVol
  dsimp only
  omega

/-- A `lognormal`-branch volume lies in `[1, max_volume]` for every
skew. -/
lemma logVol_bounds (r : VolRng) (c : ℕ) (skew : ℚ) (maxVolume : ℤ)
    (hr : r.Valid) (hmv : 1 ≤ maxVolume) :
    1 ≤ logVol r c skew maxVolume ∧ logVol r c skew maxVolume ≤ maxVolume := by
  have hx := hr.2 (max (1/1000000) skew) c
  have h0 : (0 : ℚ) ≤ min (r.lognorm (max (1/1000000) skew) c) 50 :=
    le_min hx.le (by norm_num)
  have h50 : min (r.lognorm (max (1/1000000) skew) c) 50 ≤ 50 := min_le_right _ _
  have hdiv0 : (0 : ℚ) ≤ min (r.lognorm (max (1/1000000) skew) c) 50 / 50 :=
    div_nonneg h0 (by norm_num)
  have hdiv1 : min (r.lognorm (max (1/1000000) skew) c) 50 / 50 ≤ 1 :=
    (div_le_one (by norm_num)).mpr h50
  have hmv' : (0 : ℚ) ≤ (maxVolume : ℚ) - 1 := by
    have : (1 : ℚ) ≤ (maxVolume : ℚ) := by exact_mod_cast hmv
    linarith
  have hq0 : (0 : ℚ)
      ≤ min (r.lognorm (max (1/1000000) skew) c) 50 / 50 * ((maxVolume : ℚ) - 1) :=
    mul_nonneg hdiv0 hmv'
  have hq1 : min (r.lognorm (max (1/1000000) skew) c) 50 / 50 * ((maxVolume : ℚ) - 1)
      ≤ ((maxVolume - 1 : ℤ) : ℚ) := by
    push_cast
    nlinarith
  have hb := pyInt_bounds _ (maxVolume - 1) hq0 hq1
  unfold logVol
  dsimp only
  omega

/-- The first pass succeeds on a supported mode and produces only volumes
in `[1, max_volume]`. -/
lemma rawVolumes_ok_bounds (fp : FloatPow) (r : VolRng) (mode : String)
    (skew : ℚ) (heavyTail : Bool) (maxVolume : ℤ) (hr : r.Valid)
    (hfp : fp.Valid) (hmv : 1 ≤ maxVolume)
    (hmode : mode = "power" ∨ mode = "lognormal") :
    ∀ (l : List (ℕ × ℕ)) (c : ℕ),
      ∃ raw, rawVolumes fp r mode skew heavyTail maxVolume l c = .ok raw
        ∧ ∀ v ∈ raw, 1 ≤ v ∧ v ≤ maxVolume := by
  intro l
  induction l with
  | nil => intro c; exact ⟨[], rfl, by simp⟩
  | cons e rest ih =>
    intro c
    obtain ⟨raw, hraw, hb⟩ := ih (c + 1)
    rcases hmode with h | h
    · subst h
      refine ⟨powVol fp r c skew heavyTail maxVolume :: raw, ?_, ?_⟩
      · simp [rawVolumes, hraw]
      · intro v hv
        rcases List.mem_cons.mp hv with rfl | hv
        · exact powVol_bounds fp r c skew heavyTail maxVolume hr hfp hmv
        · exact hb v hv
    · subst h
      refine ⟨logVol r c skew maxVolume :: raw, ?_, ?_⟩
      · simp [rawVolumes, hraw]
      · intro v hv
        rcases List.mem_cons.mp hv with rfl | hv
        · exact logVol_bounds r c skew maxVolume hr hmv
        · exact hb v hv

/-- The optional rescaling preserves membership in `[1, max_volume]` (the
clamp enforces it outright). -/
lemma rescale_bounds (vols : List ℤ) (targetMean : Option ℚ) (maxVolume : ℤ)
    (hmv : 1 ≤ maxVolume) (hb : ∀ v ∈ vols, 1 ≤ v ∧ v ≤ maxVolume) :
    ∀ v ∈ rescale vols targetMean maxVolume, 1 ≤ v ∧ v ≤ maxVolume := by
  intro v hv
  cases targetMean with
  | none => exact hb v hv
  | some tm =>
    rw [show rescale vols (some tm) maxVolume
        = (if vols.isEmpty then vols
          else if 0 < (vols.sum : ℚ) / (vols.length : ℚ) then
            vols.map (fun v : ℤ => max 1 (min maxVolume
              (pyRound ((v : ℚ) * (tm / ((vols.sum : ℚ) / (vols.length : ℚ)))))))
          else vols) from rfl] at hv
    by_cases he : vols.isEmpty
    · rw [if_pos he] at hv
      exact hb v hv
    · rw [if_neg he] at hv
      by_cases hc : 0 < (vols.sum : ℚ) / (vols.length : ℚ)
      · rw [if_pos hc] at hv
        obtain ⟨w, _, rfl⟩ := List.mem_map.mp hv
        constructor
        · exact le_max_left _ _
        · exact max_le hmv (min_le_left _ _)
      · rw [if_neg hc] at hv
        exact hb v hv

/-- Claim C5: for every input graph, `max_volume >= 1`, supported mode,
skew, heavy-tail flag, valid random stream and optional target mean, every
volume of `gen_message_volumes` lies in `[1, max_volume]` — both the raw
sampled volumes of the first pass and the final (optionally mean-rescaled
and clamped) assignments. -/
theorem gen_message_volumes_range (G : DiGraph) (maxVolume : ℤ) (mode : String)
    (skew : ℚ) (heavyTail : Bool) (targetMean : Option ℚ) (r : VolRng)
    (fp : FloatPow) (hr : r.Valid) (hfp : fp.Valid) (hmv : 1 ≤ maxVolume)
    (hmode : mode = "power" ∨ mode = "lognormal") :
    rawInRange (rawVolumes fp r mode skew heavyTail maxVolume G.iterEdges 0)
      maxVolume = true
    ∧ volsInRange (genMessageVolumes G maxVolume mode skew heavyTail targetMean
        r fp) maxVolume = true := by
  obtain ⟨raw, hraw, hb⟩ := rawVolumes_ok_bounds fp r mode skew heavyTail
    maxVolume hr hfp hmv hmode G.iterEdges 0
  constructor
  · rw [hraw]
    unfold rawInRange
    rw [List.all_eq_true]
    intro v hv
    simpa using hb v hv
  · unfold genMessageVolumes
    rw [hraw]
    unfold volsInRange
    rw [List.all_eq_true]
    intro p hp
    have hmem : p.2 ∈ rescale raw targetMean maxVolume := by
      have := List.of_mem_zip (a := p.1) (b := p.2) (by simpa using hp)
      exact this.2
    simpa using rescale_bounds raw targetMean maxVolume hmv hb p.2 hmem

/-- Witness for C5 on the scenario-A graph with `power` mode, volume cap
10 and a target mean. -/
theorem gen_message_volumes_range_witness :
    rawInRange (rawVolumes cFP cVR "power" 1 false 10 G45.iterEdges 0) 10 = true
    ∧ volsInRange (genMessageVolumes G45 10 "power" 1 false (some 2) cVR cFP)
        10 = true :=
  gen_message_volumes_range G45 10 "power" 1 false (some 2) cVR cFP
    cVR_valid cFP_valid (by decide) (Or.inl rfl)

/-! ### Lemmas about the edge-stage sampling primitives -/

/-- The concrete deterministic stream satisfies the draw guarantees. -/
lemma cRng_valid : cRng.Valid := by
  refine ⟨?_, ?_, ?_⟩
  · intro c start size k hk
    refine ⟨by simp [cRng], ?_, ?_⟩
    · apply List.Nodup.map
      · intro a b hab
        simp only [] at hab
        omega
      · exact List.nodup_range k
    · intro x hx
      simp only [cRng, List.mem_map, List.mem_range] at hx
      obtain ⟨i, hi, rfl⟩ := hx
      omega
  · intro c l
    refine ⟨?_, ?_, ?_⟩
    · intro h; subst h; rfl
    · intro x hx
      cases l with
      | nil => cases hx
      | cons a as =>
        simp only [cRng, List.head?] at hx
        injection hx with hx
        subst hx
        exact List.mem_cons_self a as
    · intro h
      cases l with
      | nil => exact absurd rfl h
      | cons a as => simp [cRng]
  · intro c
    norm_num [cRng]

/-- Properties of `sample_distinct_from_range` on a positive range size:
the clamped count, distinctness and the range bounds. -/
lemma sampleDFR_spec (r : EdgeRng) (hr : r.Valid) (c : ℕ) (start size k : ℤ)
    (hs : 0 < size) :
    (sampleDistinctFromRange r c start size k).length = (max 0 (min k size)).toNat
    ∧ (sampleDistinctFromRange r c start size k).Nodup
    ∧ ∀ x ∈ sampleDistinctFromRange r c start size k,
        start ≤ x ∧ x < start + size := by
  unfold sampleDistinctFromRange
  rw [if_neg (not_le.mpr hs)]
  have hk : (((max 0 (min k size)).toNat : ℤ)) ≤ size := by
    rw [Int.toNat_of_nonneg (le_max_left _ _)]
    exact max_le hs.le (min_le_right _ _)
  exact hr.1 c start size _ hk

/-- Range bounds of `sample_distinct_from_range` on any range size. -/
lemma sampleDFR_mem (r : EdgeRng) (hr : r.Valid) (c : ℕ) (start size k : ℤ) :
    ∀ x ∈ sampleDistinctFromRange r c start size k,
      start ≤ x ∧ x < start + size := by
  by_cases hs : 0 < size
  · exact (sampleDFR_spec r hr c start size k hs).2.2
  · unfold sampleDistinctFromRange
    rw [if_pos (not_lt.mp hs)]
    intro x hx
    cases hx

/-- A distinct in-range sample of full length covers the whole range. -/
lemma sample_complete (l : List ℤ) (start : ℤ) (n : ℕ) (hlen : l.length = n)
    (hnd : l.Nodup) (hmem : ∀ x ∈ l, start ≤ x ∧ x < start + (n : ℤ)) :
    ∀ y : ℤ, start ≤ y → y < start + (n : ℤ) → y ∈ l := by
  intro y hy1 hy2
  have hsub : l ⊆ (List.range n).map (fun i : ℕ => start + (i : ℤ)) := by
    intro x hx
    obtain ⟨h1, h2⟩ := hmem x hx
    refine List.mem_map.mpr ⟨(x - start).toNat, List.mem_range.mpr ?_, ?_⟩
    · omega
    · omega
  have hsp : l.Subperm ((List.range n).map (fun i : ℕ => start + (i : ℤ))) :=
    List.Nodup.subperm hnd hsub
  have hperm : l.Perm ((List.range n).map (fun i : ℕ => start + (i : ℤ))) :=
    hsp.perm_of_length_le (by simp [hlen])
  apply hperm.symm.subset
  refine List.mem_map.mpr ⟨(y - start).toNat, List.mem_range.mpr ?_, ?_⟩
  · omega
  · omega

/-! ### Lemmas about the coverage and densification loops -/

/-- With a non-empty opposite sample, the first coverage loop succeeds and
gives every iterated u-vertex an edge into the opposite sample; it only
appends edges directed from the iterated list into the opposite sample. -/
lemma coverU_ok (r : EdgeRng) (hr : r.Valid) (sV : List ℤ) (hsV : sV ≠ []) :
    ∀ (sU : List ℤ) (c : ℕ) (g : EGraph),
      ∃ c' g', coverU r sV sU c g = .ok (c', g')
        ∧ g.edges.Sublist g'.edges
        ∧ (∀ x ∈ sU, ∃ y ∈ sV, g'.hasEdge x y = true)
        ∧ (∀ e ∈ g'.edges, e ∈ g.edges ∨ (e.1 ∈ sU ∧ e.2 ∈ sV)) := by
  intro sU
  induction sU with
  | nil =>
    intro c g
    exact ⟨c, g, rfl, List.Sublist.refl _, (by intro x hx; cases hx),
      fun e he => Or.inl he⟩
  | cons su rest ih =>
    intro c g
    obtain ⟨-, hcm, hcs⟩ := hr.2.1 c sV
    obtain ⟨y, hy⟩ := Option.isSome_iff_exists.mp (hcs hsV)
    have hymem : y ∈ sV := hcm y hy
    obtain ⟨c', g', hok, hsub, hcov, hchar⟩ := ih (c + 1) (g.addEdge su y)
    refine ⟨c', g', ?_, ?_, ?_, ?_⟩
    · simp [coverU, hy, hok]
    · exact (addEdge_sublist g su y).trans hsub
    · intro x hx
      rcases List.mem_cons.mp hx with rfl | hx
      · refine ⟨y, hymem, ?_⟩
        apply hasEdge_mono hsub
        simp [EGraph.hasEdge, EGraph.addEdge, containsE]
      · exact hcov x hx
    · intro e he
      rcases hchar e he with he | he
      · rcases List.mem_append.mp he with he | he
        · exact Or.inl he
        · rcases List.mem_singleton.mp he with rfl
          exact Or.inr ⟨List.mem_cons_self _ _, hymem⟩
      · exact Or.inr ⟨List.mem_cons_of_mem _ he.1, he.2⟩

/-- With a non-empty u-sample, the second coverage loop succeeds and gives
every iterated v-vertex an edge from the u-sample; it only appends edges
directed from the u-sample into the iterated list. -/
lemma coverV_ok (r : EdgeRng) (hr : r.Valid) (sU : List ℤ) (hsU : sU ≠ []) :
    ∀ (sV : List ℤ) (c : ℕ) (g : EGraph),
      ∃ c' g', coverV r sU sV c g = .ok (c', g')
        ∧ g.edges.Sublist g'.edges
        ∧ (∀ y ∈ sV, ∃ x ∈ sU, g'.hasEdge x y = true)
        ∧ (∀ e ∈ g'.edges, e ∈ g.edges ∨ (e.1 ∈ sU ∧ e.2 ∈ sV)) := by
  intro sV
  induction sV with
  | nil =>
    intro c g
    exact ⟨c, g, rfl, List.Sublist.refl _, (by intro y hy; cases hy),
      fun e he => Or.inl he⟩
  | cons sv rest ih =>
    intro c g
    obtain ⟨-, hcm, hcs⟩ := hr.2.1 c sU
    obtain ⟨x, hx⟩ := Option.isSome_iff_exists.mp (hcs hsU)
    have hxmem : x ∈ sU := hcm x hx
    obtain ⟨c', g', hok, hsub, hcov, hchar⟩ := ih (c + 1) (g.addEdge x sv)
    refine ⟨c', g', ?_, ?_, ?_, ?_⟩
    · simp [coverV, hx, hok]
    · exact (addEdge_sublist g x sv).trans hsub
    · intro y hy
      rcases List.mem_cons.mp hy with rfl | hy
      · refine ⟨x, hxmem, ?_⟩
        apply hasEdge_mono hsub
        simp [EGraph.hasEdge, EGraph.addEdge, containsE]
      · exact hcov y hy
    · intro e he
      rcases hchar e he with he | he
      · rcases List.mem_append.mp he with he | he
        · exact Or.inl he
        · rcases List.mem_singleton.mp he with rfl
          exact Or.inr ⟨hxmem, List.mem_cons_self _ _⟩
      · exact Or.inr ⟨he.1, List.mem_cons_of_mem _ he.2⟩

/-- Characterisation of a successful first coverage loop without any
non-emptiness assumption. -/
lemma coverU_char (r : EdgeRng) (hr : r.Valid) (sV : List ℤ) :
    ∀ (sU : List ℤ) (c : ℕ) (g : EGraph) (c' : ℕ) (g' : EGraph),
      coverU r sV sU c g = .ok (c', g') →
      g.edges.Sublist g'.edges
      ∧ ∀ e ∈ g'.edges, e ∈ g.edges ∨ (e.1 ∈ sU ∧ e.2 ∈ sV) := by
  intro sU
  induction sU with
  | nil =>
    intro c g c' g' hok
    injection hok with hok
    rw [Prod.mk.injEq] at hok
    rw [← hok.2]
    exact ⟨List.Sublist.refl _, fun e he => Or.inl he⟩
  | cons su rest ih =>
    intro c g c' g' hok
    rw [show coverU r sV (su :: rest) c g
        = (match r.choice c sV with
          | none => .error choiceEmptyErr
          | some sv => coverU r sV rest (c + 1) (g.addEdge su sv)) from rfl] at hok
    cases hy : r.choice c sV with
    | none => rw [hy] at hok; cases hok
    | some y =>
      rw [hy] at hok
      obtain ⟨hsub, hchar⟩ := ih (c + 1) (g.addEdge su y) c' g' hok
      have hymem : y ∈ sV := (hr.2.1 c sV).2.1 y hy
      refine ⟨(addEdge_sublist g su y).trans hsub, ?_⟩
      intro e he
      rcases hchar e he with he | he
      · rcases List.mem_append.mp he with he | he
        · exact Or.inl he
        · rcases List.mem_singleton.mp he with rfl
          exact Or.inr ⟨List.mem_cons_self _ _, hymem⟩
      · exact Or.inr ⟨List.mem_cons_of_mem _ he.1, he.2⟩

/-- Characterisation of a successful second coverage loop without any
non-emptiness assumption. -/
lemma coverV_char (r : EdgeRng) (hr : r.Valid) (sU : List ℤ) :
    ∀ (sV : List ℤ) (c : ℕ) (g : EGraph) (c' : ℕ) (g' : EGraph),
      coverV r sU sV c g = .ok (c', g') →
      g.edges.Sublist g'.edges
      ∧ ∀ e ∈ g'.edges, e ∈ g.edges ∨ (e.1 ∈ sU ∧ e.2 ∈ sV) := by
  intro sV
  induction sV with
  | nil =>
    intro c g c' g' hok
    injection hok with hok
    rw [Prod.mk.injEq] at hok
    rw [← hok.2]
    exact ⟨List.Sublist.refl _, fun e he => Or.inl he⟩
  | cons sv rest ih =>
    intro c g c' g' hok
    rw [show coverV r sU (sv :: rest) c g
        = (match r.choice c sU with
          | none => .error choiceEmptyErr
          | some su => coverV r sU rest (c + 1) (g.addEdge su sv)) from rfl] at hok
    cases hx : r.choice c sU with
    | none => rw [hx] at hok; cases hok
    | some x =>
      rw [hx] at hok
      obtain ⟨hsub, hchar⟩ := ih (c + 1) (g.addEdge x sv) c' g' hok
      have hxmem : x ∈ sU := (hr.2.1 c sU).2.1 x hx
      refine ⟨(addEdge_sublist g x sv).trans hsub, ?_⟩
      intro e he
      rcases hchar e he with he | he
      · rcases List.mem_append.mp he with he | he
        · exact Or.inl he
        · rcases List.mem_singleton.mp he with rfl
          exact Or.inr ⟨hxmem, List.mem_cons_self _ _⟩
      · exact Or.inr ⟨he.1, List.mem_cons_of_mem _ he.2⟩

/-- The inner densification loop only appends edges from the fixed
u-vertex into the iterated list. -/
lemma densifyInner_props (r : EdgeRng) (su : ℤ) (prob : ℚ) :
    ∀ (sV : List ℤ) (c : ℕ) (g : EGraph),
      g.edges.Sublist (densifyInner r su prob sV c g).2.edges
      ∧ ∀ e ∈ (densifyInner r su prob sV c g).2.edges,
          e ∈ g.edges ∨ (e.1 = su ∧ e.2 ∈ sV) := by
  intro sV
  induction sV with
  | nil => intro c g; exact ⟨List.Sublist.refl _, fun e he => Or.inl he⟩
  | cons sv rest ih =>
    intro c g
    by_cases h : g.hasEdge su sv = true
    · obtain ⟨h1, h2⟩ := ih c g
      constructor
      · simpa [densifyInner, h] using h1
      · intro e he
        rcases h2 e (by simpa [densifyInner, h] using he) with he | he
        · exact Or.inl he
        · exact Or.inr ⟨he.1, List.mem_cons_of_mem _ he.2⟩
    · have h' : g.hasEdge su sv = false := by
        cases hh : g.hasEdge su sv
        · rfl
        · exact absurd hh h
      by_cases hp : r.rand c < prob
      · obtain ⟨h1, h2⟩ := ih (c + 1) (g.addEdge su sv)
        constructor
        · have := (addEdge_sublist g su sv).trans h1
          simpa [densifyInner, h', hp] using this
        · intro e he
          rcases h2 e (by simpa [densifyInner, h', hp] using he) with he | he
          · rcases List.mem_append.mp he with he | he
            · exact Or.inl he
            · rcases List.mem_singleton.mp he with rfl
              exact Or.inr ⟨rfl, List.mem_cons_self _ _⟩
          · exact Or.inr ⟨he.1, List.mem_cons_of_mem _ he.2⟩
      · obtain ⟨h1, h2⟩ := ih (c + 1) g
        constructor
        · simpa [densifyInner, h', hp] using h1
        · intro e he
          rcases h2 e (by simpa [densifyInner, h', hp] using he) with he | he
          · exact Or.inl he
          · exact Or.inr ⟨he.1, List.mem_cons_of_mem _ he.2⟩

/-- The outer densification loop only appends edges from the u-sample into
the v-sample. -/
lemma densify_props (r : EdgeRng) (sV : List ℤ) (prob : ℚ) :
    ∀ (sU : List ℤ) (c : ℕ) (g : EGraph),
      g.edges.Sublist (densify r sV prob sU c g).2.edges
      ∧ ∀ e ∈ (densify r sV prob sU c g).2.edges,
          e ∈ g.edges ∨ (e.1 ∈ sU ∧ e.2 ∈ sV) := by
  intro sU
  induction sU with
  | nil => intro c g; exact ⟨List.Sublist.refl _, fun e he => Or.inl he⟩
  | cons su rest ih =>
    intro c g
    obtain ⟨h1, h2⟩ := densifyInner_props r su prob sV c g
    obtain ⟨h1', h2'⟩ := ih (densifyInner r su prob sV c g).1
      (densifyInner r su prob sV c g).2
    constructor
    · have := h1.trans h1'
      simpa [densify] using this
    · intro e he
      have he' : e ∈ (densify r sV prob rest (densifyInner r su prob sV c g).1
          (densifyInner r su prob sV c g).2).2.edges := by
        simpa [densify] using he
      rcases h2' e he' with he2 | he2
      · rcases h2 e he2 with he3 | he3
        · exact Or.inl he3
        · refine Or.inr ⟨?_, he3.2⟩
          rw [he3.1]
          exact List.mem_cons_self _ _
      · exact Or.inr ⟨List.mem_cons_of_mem _ he2.1, he2.2⟩

/-- With a connection probability exceeding every draw (as with
probability 1), the inner densification loop connects the fixed u-vertex
to every vertex of the iterated list. -/
lemma densifyInner_complete (r : EdgeRng) (su : ℤ) (prob : ℚ)
    (hprob : ∀ c, r.rand c < prob) :
    ∀ (sV : List ℤ) (c : ℕ) (g : EGraph),
      ∀ sv ∈ sV, (densifyInner r su prob sV c g).2.hasEdge su sv = true := by
  intro sV
  induction sV with
  | nil => intro c g sv hsv; cases hsv
  | cons sv0 rest ih =>
    intro c g sv hsv
    by_cases h : g.hasEdge su sv0 = true
    · rcases List.mem_cons.mp hsv with rfl | hsv
      · have hsub := (densifyInner_props r su prob rest c g).1
        have := hasEdge_mono hsub h
        simpa [densifyInner, h] using this
      · simpa [densifyInner, h] using ih c g sv hsv
    · have h' : g.hasEdge su sv0 = false := by
        cases hh : g.hasEdge su sv0
        · rfl
        · exact absurd hh h
      have hp := hprob c
      rcases List.mem_cons.mp hsv with rfl | hsv
      · have hsub := (densifyInner_props r su prob rest (c + 1)
          (g.addEdge su sv)).1
        have hstart : (g.addEdge su sv).hasEdge su sv = true := by
          simp [EGraph.hasEdge, EGraph.addEdge, containsE]
        have := hasEdge_mono hsub hstart
        simpa [densifyInner, h', hp] using this
      · have := ih (c + 1) (g.addEdge su sv0) sv hsv
        simpa [densifyInner, h', hp] using this

/-- With a connection probability exceeding every draw, the densification
pass leaves every cross pair of the two samples connected. -/
lemma densify_complete (r : EdgeRng) (sV : List ℤ) (prob : ℚ)
    (hprob : ∀ c, r.rand c < prob) :
    ∀ (sU : List ℤ) (c : ℕ) (g : EGraph),
      ∀ x ∈ sU, ∀ y ∈ sV, (densify r sV prob sU c g).2.hasEdge x y = true := by
  intro sU
  induction sU with
  | nil => intro c g x hx; cases hx
  | cons su rest ih =>
    intro c g x hx y hy
    rcases List.mem_cons.mp hx with rfl | hx
    · have h1 := densifyInner_complete r x prob hprob sV c g y hy
      have hsub := (densify_props r sV prob rest (densifyInner r x prob sV c g).1
        (densifyInner r x prob sV c g).2).1
      have := hasEdge_mono hsub h1
      simpa [densify] using this
    · have := ih (densifyInner r su prob sV c g).1
        (densifyInner r su prob sV c g).2 x hx y hy
      simpa [densify] using this

/-! ### Lemmas about the per-pair processing -/

/-- Sample in u-to-v direction unfolds to `sample_distinct_from_range`. -/
lemma pairSampleU_def (r : EdgeRng) (G : DiGraph) (sizes offs : List ℤ)
    (c : ℕ) (u v : ℕ) :
    pairSampleU r G sizes offs c u v
      = sampleDistinctFromRange r c (offs.getD u 0) (sizes.getD u 0) (G.w u v) :=
  rfl

/-- Sample in v-to-u direction unfolds to `sample_distinct_from_range`. -/
lemma pairSampleV_def (r : EdgeRng) (G : DiGraph) (sizes offs : List ℤ)
    (c : ℕ) (u v : ℕ) :
    pairSampleV r G sizes offs c u v
      = sampleDistinctFromRange r (c + 1) (offs.getD v 0) (sizes.getD v 0)
          (if G.hasEdge v u then G.w v u else 0) :=
  rfl

/-- Main behaviour of the pair body on an unprocessed pair whose two
partitions are non-empty and whose two directed volumes are at least 1:
it succeeds, records the pair, only appends edges between the two samples,
gives every sampled vertex on either side a cross edge, and under a
probability exceeding every draw connects every cross pair. -/
lemma processPair_main (r : EdgeRng) (hr : r.Valid) (G : DiGraph)
    (sizes offs : List ℤ) (prob : ℚ) (st : EGState) (u v : ℕ)
    (h1 : st.processed.contains (u, v) = false)
    (h2 : st.processed.contains (v, u) = false)
    (hszU : 0 < sizes.getD u 0) (hszV : 0 < sizes.getD v 0)
    (hvolU : 1 ≤ G.w u v)
    (hvolV : 1 ≤ (if G.hasEdge v u then G.w v u else 0)) :
    ∃ c' g', processPair r G sizes offs prob st u v
        = .ok ⟨(u, v) :: st.processed, c', g'⟩
      ∧ st.g.edges.Sublist g'.edges
      ∧ (∀ x ∈ pairSampleU r G sizes offs st.c u v,
          ∃ y ∈ pairSampleV r G sizes offs st.c u v, g'.hasEdge x y = true)
      ∧ (∀ y ∈ pairSampleV r G sizes offs st.c u v,
          ∃ x ∈ pairSampleU r G sizes offs st.c u v, g'.hasEdge x y = true)
      ∧ (∀ e ∈ g'.edges, e ∈ st.g.edges
          ∨ (e.1 ∈ pairSampleU r G sizes offs st.c u v
             ∧ e.2 ∈ pairSampleV r G sizes offs st.c u v))
      ∧ ((∀ cc, r.rand cc < prob) →
          ∀ x ∈ pairSampleU r G sizes offs st.c u v,
          ∀ y ∈ pairSampleV r G sizes offs st.c u v, g'.hasEdge x y = true) := by
  have hlU := sampleDFR_spec r hr st.c (offs.getD u 0) (sizes.getD u 0)
    (G.w u v) hszU
  have hlV := sampleDFR_spec r hr (st.c + 1) (offs.getD v 0) (sizes.getD v 0)
    (if G.hasEdge v u then G.w v u else 0) hszV
  have hneU : pairSampleU r G sizes offs st.c u v ≠ [] := by
    have hl : (pairSampleU r G sizes offs st.c u v).length ≠ 0 := by
      rw [pairSampleU_def, hlU.1]
      omega
    intro h
    rw [h] at hl
    exact hl rfl
  have hneV : pairSampleV r G sizes offs st.c u v ≠ [] := by
    have hl : (pairSampleV r G sizes offs st.c u v).length ≠ 0 := by
      rw [pairSampleV_def, hlV.1]
      omega
    intro h
    rw [h] at hl
    exact hl rfl
  obtain ⟨c1, g1, hcov1, hsub1, hcovU, hchar1⟩ :=
    coverU_ok r hr (pairSampleV r G sizes offs st.c u v) hneV
      (pairSampleU r G sizes offs st.c u v) (st.c + 2) st.g
  obtain ⟨c2, g2, hcov2, hsub2, hcovV, hchar2⟩ :=
    coverV_ok r hr (pairSampleU r G sizes offs st.c u v) hneU
      (pairSampleV r G sizes offs st.c u v) c1 g1
  obtain ⟨hsub3, hchar3⟩ := densify_props r (pairSampleV r G sizes offs st.c u v)
    prob (pairSampleU r G sizes offs st.c u v) c2 g2
  refine ⟨(densify r (pairSampleV r G sizes offs st.c u v) prob
      (pairSampleU r G sizes offs st.c u v) c2 g2).1,
    (densify r (pairSampleV r G sizes offs st.c u v) prob
      (pairSampleU r G sizes offs st.c u v) c2 g2).2, ?_, ?_, ?_, ?_, ?_, ?_⟩
  · unfold processPair
    rw [h1, h2, Bool.or_self, if_neg Bool.false_ne_true]
    simp only []
    rw [if_neg (by omega : ¬(sizes.getD u 0 = 0 ∨ sizes.getD v 0 = 0))]
    rw [hcov1]
    simp only []
    rw [hcov2]
  · exact hsub1.trans (hsub2.trans hsub3)
  · intro x hx
    obtain ⟨y, hy, he⟩ := hcovU x hx
    exact ⟨y, hy, hasEdge_mono hsub3 (hasEdge_mono hsub2 he)⟩
  · intro y hy
    obtain ⟨x, hx, he⟩ := hcovV y hy
    exact ⟨x, hx, hasEdge_mono hsub3 he⟩
  · intro e he
    rcases hchar3 e he with he | he
    · rcases hchar2 e he with he | he
      · rcases hchar1 e he with he | he
        · exact Or.inl he
        · exact Or.inr he
      · exact Or.inr he
    · exact Or.inr he
  · intro hprob x hx y hy
    exact densify_complete r _ prob hprob _ c2 g2 x hx y hy

/-- Characterisation of any successful pair body: the edge list only grows,
and every new edge joins the two samples of the pair. -/
lemma processPair_char (r : EdgeRng) (hr : r.Valid) (G : DiGraph)
    (sizes offs : List ℤ) (prob : ℚ) (st : EGState) (u v : ℕ) (st' : EGState)
    (hok : processPair r G sizes offs prob st u v = .ok st') :
    st.g.edges.Sublist st'.g.edges
    ∧ ∀ e ∈ st'.g.edges, e ∈ st.g.edges
        ∨ (e.1 ∈ pairSampleU r G sizes offs st.c u v
           ∧ e.2 ∈ pairSampleV r G sizes offs st.c u v) := by
  unfold processPair at hok
  by_cases hskip : (st.processed.contains (u, v) || st.processed.contains (v, u)) = true
  · rw [if_pos hskip] at hok
    injection hok with hok
    rw [← hok]
    exact ⟨List.Sublist.refl _, fun e he => Or.inl he⟩
  · rw [if_neg hskip] at hok
    simp only [] at hok
    by_cases hz : sizes.getD u 0 = 0 ∨ sizes.getD v 0 = 0
    · rw [if_pos hz] at hok
      cases hok
    · rw [if_neg hz] at hok
      cases hcov1 : coverU r (pairSampleV r G sizes offs st.c u v)
          (pairSampleU r G sizes offs st.c u v) (st.c + 2) st.g with
      | error e => rw [hcov1] at hok; cases hok
      | ok p1 =>
        rw [hcov1] at hok
        simp only [] at hok
        cases hcov2 : coverV r (pairSampleU r G sizes offs st.c u v)
            (pairSampleV r G sizes offs st.c u v) p1.1 p1.2 with
        | error e => rw [hcov2] at hok; cases hok
        | ok p2 =>
          rw [hcov2] at hok
          simp only [] at hok
          injection hok with hok
          obtain ⟨hs1, hc1⟩ := coverU_char r hr
            (pairSampleV r G sizes offs st.c u v)
            (pairSampleU r G sizes offs st.c u v) (st.c + 2) st.g p1.1 p1.2
            (by simpa using hcov1)
          obtain ⟨hs2, hc2⟩ := coverV_char r hr
            (pairSampleU r G sizes offs st.c u v)
            (pairSampleV r G sizes offs st.c u v) p1.1 p1.2 p2.1 p2.2
            (by simpa using hcov2)
          obtain ⟨hs3, hc3⟩ := densify_props r
            (pairSampleV r G sizes offs st.c u v) prob
            (pairSampleU r G sizes offs st.c u v) p2.1 p2.2
          rw [← hok]
          refine ⟨hs1.trans (hs2.trans hs3), ?_⟩
          intro e he
          rcases hc3 e he with he | he
          · rcases hc2 e he with he | he
            · rcases hc1 e he with he | he
              · exact Or.inl he
              · exact Or.inr he
            · exact Or.inr he
          · exact Or.inr he

/-! ### Claim C1 -/

/-- Success of the inner neighbour loop under symmetric communication,
positive volumes and non-empty communicating partitions. -/
lemma genEdgesInner_ok (r : EdgeRng) (hr : r.Valid) (G : DiGraph)
    (sizes offs : List ℤ) (prob : ℚ)
    (hsym : ∀ a b, b ∈ G.adj a → a ∈ G.adj b)
    (hw : ∀ a b, b ∈ G.adj a → 1 ≤ G.w a b)
    (hsz : ∀ a, G.adj a ≠ [] → 0 < sizes.getD a 0) (u : ℕ) :
    ∀ (l : List ℕ), (∀ x ∈ l, x ∈ G.adj u) → ∀ (st : EGState),
      ∃ st', genEdgesInner r G sizes offs prob u l st = .ok st' := by
  intro l
  induction l with
  | nil => intro _ st; exact ⟨st, rfl⟩
  | cons v rest ih =>
    intro hmem st
    have hv : v ∈ G.adj u := hmem v (List.mem_cons_self _ _)
    by_cases hskip : (st.processed.contains (u, v)
        || st.processed.contains (v, u)) = true
    · have hpp : processPair r G sizes offs prob st u v = .ok st := by
        unfold processPair
        rw [if_pos hskip]
      obtain ⟨st', hst'⟩ := ih (fun x hx => hmem x (List.mem_cons_of_mem _ hx)) st
      exact ⟨st', by simp [genEdgesInner, hpp, hst']⟩
    · have hskip' : (st.processed.contains (u, v)
          || st.processed.contains (v, u)) = false := by
        cases hh : (st.processed.contains (u, v) || st.processed.contains (v, u))
        · rfl
        · exact absurd hh hskip
      have hor := Bool.or_eq_false_iff.mp hskip'
      have hvolU : 1 ≤ G.w u v := hw u v hv
      have hrev : G.hasEdge v u = true := (containsE _ _).mpr (hsym u v hv)
      have hvolV : 1 ≤ (if G.hasEdge v u then G.w v u else 0) := by
        rw [if_pos hrev]
        exact hw v u (hsym u v hv)
      have hszU : 0 < sizes.getD u 0 := by
        apply hsz u
        intro h
        rw [h] at hv
        cases hv
      have hszV : 0 < sizes.getD v 0 := by
        apply hsz v
        intro h
        have := hsym u v hv
        rw [h] at this
        cases this
      obtain ⟨c', g', hok, -, -, -, -, -⟩ := processPair_main r hr G sizes offs
        prob st u v hor.1 hor.2 hszU hszV hvolU hvolV
      obtain ⟨st', hst'⟩ := ih (fun x hx => hmem x (List.mem_cons_of_mem _ hx))
        ⟨(u, v) :: st.processed, c', g'⟩
      exact ⟨st', by simp [genEdgesInner, hok, hst']⟩

/-- Success of the outer node loop under the same conditions. -/
lemma genEdgesNodes_ok (r : EdgeRng) (hr : r.Valid) (G : DiGraph)
    (sizes offs : List ℤ) (prob : ℚ)
    (hsym : ∀ a b, b ∈ G.adj a → a ∈ G.adj b)
    (hw : ∀ a b, b ∈ G.adj a → 1 ≤ G.w a b)
    (hsz : ∀ a, G.adj a ≠ [] → 0 < sizes.getD a 0) :
    ∀ (l : List ℕ) (st : EGState),
      ∃ st', genEdgesNodes r G sizes offs prob l st = .ok st' := by
  intro l
  induction l with
  | nil => intro st; exact ⟨st, rfl⟩
  | cons u rest ih =>
    intro st
    obtain ⟨st1, h1⟩ := genEdgesInner_ok r hr G sizes offs prob hsym hw hsz u
      (G.adj u) (fun _ hx => hx) st
    obtain ⟨st', h2⟩ := ih st1
    exact ⟨st', by simp [genEdgesNodes, h1, h2]⟩

/-- Claim C1 (amended): when every communicating pair has BOTH directed
edges present with volume at least 1 (so both samples are non-empty) and
every communicating process has a non-empty partition, `generate_edges`
processes every pair to completion without an unhandled exception, and
every reached unprocessed pair ends its processing with every vertex of
each sample joined to at least one vertex of the opposite sample.  When
the reverse edge is absent (`vol_vu = 0`, the configuration the original
claim also covers), the opposite sample is empty and the coverage loop
instead aborts with an unhandled `IndexError` — see the counterexample. -/
theorem generate_edges_pair_safety (r : EdgeRng) (hr : r.Valid) (G : DiGraph)
    (sizes : List ℤ) (prob : ℚ) (g0 : EGraph)
    (hsym : ∀ a b, b ∈ G.adj a → a ∈ G.adj b)
    (hw : ∀ a b, b ∈ G.adj a → 1 ≤ G.w a b)
    (hsz : ∀ a, G.adj a ≠ [] → 0 < sizes.getD a 0) :
    (∃ g, generateEdges g0 sizes G prob r = .ok g)
    ∧ (∀ (st : EGState) (u v : ℕ), v ∈ G.adj u →
        st.processed.contains (u, v) = false →
        st.processed.contains (v, u) = false →
        ∃ c' g', processPair r G sizes (partOffsets sizes) prob st u v
            = .ok ⟨(u, v) :: st.processed, c', g'⟩
          ∧ (∀ x ∈ pairSampleU r G sizes (partOffsets sizes) st.c u v,
              ∃ y ∈ pairSampleV r G sizes (partOffsets sizes) st.c u v,
                g'.hasEdge x y = true)
          ∧ (∀ y ∈ pairSampleV r G sizes (partOffsets sizes) st.c u v,
              ∃ x ∈ pairSampleU r G sizes (partOffsets sizes) st.c u v,
                g'.hasEdge x y = true)) := by
  constructor
  · obtain ⟨st', hst'⟩ := genEdgesNodes_ok r hr G sizes (partOffsets sizes)
      prob hsym hw hsz (List.range G.numNodes) ⟨[], 0, g0⟩
    exact ⟨st'.g, by simp [generateEdges, hst']⟩
  · intro st u v hv h1 h2
    have hvolU : 1 ≤ G.w u v := hw u v hv
    have hrev : G.hasEdge v u = true := (containsE _ _).mpr (hsym u v hv)
    have hvolV : 1 ≤ (if G.hasEdge v u then G.w v u else 0) := by
      rw [if_pos hrev]
      exact hw v u (hsym u v hv)
    have hszU : 0 < sizes.getD u 0 := by
      apply hsz u
      intro h
      rw [h] at hv
      cases hv
    have hszV : 0 < sizes.getD v 0 := by
      apply hsz v
      intro h
      have := hsym u v hv
      rw [h] at this
      cases this
    obtain ⟨c', g', hok, -, hcU, hcV, -, -⟩ := processPair_main r hr G sizes
      (partOffsets sizes) prob st u v h1 h2 hszU hszV hvolU hvolV
    exact ⟨c', g', hok, hcU, hcV⟩

/-- Communication symmetry of the two-process both-directions graph. -/
lemma G2sym_sym : ∀ a b, b ∈ G2sym.adj a → a ∈ G2sym.adj b := by
  intro a b hb
  by_cases h0 : a = 0
  · subst h0
    simp [G2sym] at hb
    subst hb
    simp [G2sym]
  · by_cases h1 : a = 1
    · subst h1
      simp [G2sym] at hb
      subst hb
      simp [G2sym]
    · simp [G2sym, h0, h1] at hb

/-- All weights of the two-process both-directions graph are 1. -/
lemma G2sym_w : ∀ a b, b ∈ G2sym.adj a → 1 ≤ G2sym.w a b := by
  intro a b _
  simp [G2sym]

/-- Both partitions of the size array `[1, 1]` are non-empty for the
communicating processes of `G2sym`. -/
lemma G2sym_sz : ∀ a, G2sym.adj a ≠ [] → 0 < ([1, 1] : List ℤ).getD a 0 := by
  intro a ha
  by_cases h0 : a = 0
  · subst h0; decide
  · by_cases h1 : a = 1
    · subst h1; decide
    · exact absurd (by simp [G2sym, h0, h1]) ha

/-- Witness for the amended C1 on the two-process both-directions graph
with unit volumes and partition sizes 1. -/
theorem generate_edges_pair_safety_witness :
    exceptIsOk (generateEdges ⟨2, []⟩ [1, 1] G2sym 0 cRng) = true := by
  obtain ⟨g, hg⟩ := (generate_edges_pair_safety cRng cRng_valid G2sym [1, 1] 0
    ⟨2, []⟩ G2sym_sym G2sym_w G2sym_sz).1
  rw [hg]
  rfl

/-! ### Claim C9 -/

/-- Establishing the inter-partition Boolean check from concrete range
memberships of the two endpoints. -/
lemma interPartB_of (sizes : List ℤ) (e : ℤ × ℤ) (a b : ℕ)
    (ha : a < sizes.length) (hb : b < sizes.length) (hab : a ≠ b)
    (h1 : (partOffsets sizes).getD a 0 ≤ e.1
      ∧ e.1 < (partOffsets sizes).getD a 0 + sizes.getD a 0)
    (h2 : (partOffsets sizes).getD b 0 ≤ e.2
      ∧ e.2 < (partOffsets sizes).getD b 0 + sizes.getD b 0) :
    interPartB sizes e = true := by
  unfold interPartB
  rw [List.any_eq_true]
  refine ⟨a, List.mem_range.mpr ha, ?_⟩
  rw [List.any_eq_true]
  refine ⟨b, List.mem_range.mpr hb, ?_⟩
  simp only [decide_eq_true_eq]
  exact ⟨hab, h1.1, h1.2, h2.1, h2.2⟩

/-- The inner neighbour loop preserves the all-edges-inter-partition
invariant on self-loop-free process graphs. -/
lemma genEdgesInner_inter (r : EdgeRng) (hr : r.Valid) (G : DiGraph)
    (sizes : List ℤ) (prob : ℚ)
    (hloop : ∀ a, a ∉ G.adj a)
    (hlen : ∀ a b, b ∈ G.adj a → a < sizes.length ∧ b < sizes.length)
    (u : ℕ) :
    ∀ (l : List ℕ), (∀ x ∈ l, x ∈ G.adj u) → ∀ (st st' : EGState),
      (∀ e ∈ st.g.edges, interPartB sizes e = true) →
      genEdgesInner r G sizes (partOffsets sizes) prob u l st = .ok st' →
      ∀ e ∈ st'.g.edges, interPartB sizes e = true := by
  intro l
  induction l with
  | nil =>
    intro _ st st' hP hok
    injection hok with hok
    rw [← hok]
    exact hP
  | cons v rest ih =>
    intro hmem st st' hP hok
    have hv : v ∈ G.adj u := hmem v (List.mem_cons_self _ _)
    rw [show genEdgesInner r G sizes (partOffsets sizes) prob u (v :: rest) st
        = (match processPair r G sizes (partOffsets sizes) prob st u v with
          | .error e => .error e
          | .ok st1 => genEdgesInner r G sizes (partOffsets sizes) prob u rest st1)
        from rfl] at hok
    cases hpp : processPair r G sizes (partOffsets sizes) prob st u v with
    | error e => rw [hpp] at hok; cases hok
    | ok st1 =>
      rw [hpp] at hok
      have hP1 : ∀ e ∈ st1.g.edges, interPartB sizes e = true := by
        obtain ⟨-, hchar⟩ := processPair_char r hr G sizes (partOffsets sizes)
          prob st u v st1 hpp
        intro e he
        rcases hchar e he with he | he
        · exact hP e he
        · have huv : u ≠ v := by
            intro h
            rw [h] at hv
            exact hloop v hv
          obtain ⟨hul, hvl⟩ := hlen u v hv
          refine interPartB_of sizes e u v hul hvl huv ?_ ?_
          · exact sampleDFR_mem r hr st.c ((partOffsets sizes).getD u 0)
              (sizes.getD u 0) (G.w u v) e.1 he.1
          · exact sampleDFR_mem r hr (st.c + 1) ((partOffsets sizes).getD v 0)
              (sizes.getD v 0) (if G.hasEdge v u then G.w v u else 0) e.2 he.2
      exact ih (fun x hx => hmem x (List.mem_cons_of_mem _ hx)) st1 st' hP1 hok

/-- The outer node loop preserves the all-edges-inter-partition
invariant. -/
lemma genEdgesNodes_inter (r : EdgeRng) (hr : r.Valid) (G : DiGraph)
    (sizes : List ℤ) (prob : ℚ)
    (hloop : ∀ a, a ∉ G.adj a)
    (hlen : ∀ a b, b ∈ G.adj a → a < sizes.length ∧ b < sizes.length) :
    ∀ (l : List ℕ) (st st' : EGState),
      (∀ e ∈ st.g.edges, interPartB sizes e = true) →
      genEdgesNodes r G sizes (partOffsets sizes) prob l st = .ok st' →
      ∀ e ∈ st'.g.edges, interPartB sizes e = true := by
  intro l
  induction l with
  | nil =>
    intro st st' hP hok
    injection hok with hok
    rw [← hok]
    exact hP
  | cons u rest ih =>
    intro st st' hP hok
    rw [show genEdgesNodes r G sizes (partOffsets sizes) prob (u :: rest) st
        = (match genEdgesInner r G sizes (partOffsets sizes) prob u (G.adj u) st with
          | .error e => .error e
          | .ok st1 => genEdgesNodes r G sizes (partOffsets sizes) prob rest st1)
        from rfl] at hok
    cases hin : genEdgesInner r G sizes (partOffsets sizes) prob u (G.adj u) st with
    | error e => rw [hin] at hok; cases hok
    | ok st1 =>
      rw [hin] at hok
      have hP1 := genEdgesInner_inter r hr G sizes prob hloop hlen u (G.adj u)
        (fun _ hx => hx) st st1 hP hin
      exact ih st1 st' hP1 hok

/-- Claim C9 (amended): for every process graph WITHOUT self-loops, every
partition-size array indexed by its communicating processes, every
connection probability and every valid random stream, a successful
`generate_edges` run starting from the empty expanded graph returns only
edges whose two endpoints lie in the partition ranges of the two distinct
processes of their originating pair: no intra-partition edges.  A self-loop
`u → u` in the process graph violates this — see the counterexample. -/
theorem generate_edges_inter_partition (r : EdgeRng) (hr : r.Valid)
    (G : DiGraph) (sizes : List ℤ) (prob : ℚ) (n0 : ℕ)
    (hloop : ∀ a, a ∉ G.adj a)
    (hlen : ∀ a b, b ∈ G.adj a → a < sizes.length ∧ b < sizes.length) :
    allInterPart (generateEdges ⟨n0, []⟩ sizes G prob r) sizes = true := by
  unfold generateEdges
  cases hrun : genEdgesNodes r G sizes (partOffsets sizes) prob
      (List.range G.numNodes) ⟨[], 0, ⟨n0, []⟩⟩ with
  | error e => rfl
  | ok st =>
    unfold allInterPart
    rw [List.all_eq_true]
    intro e he
    exact genEdgesNodes_inter r hr G sizes prob hloop hlen
      (List.range G.numNodes) ⟨[], 0, ⟨n0, []⟩⟩ st (by intro x hx; cases hx)
      hrun e he

/-- The two-process both-directions graph has no self-loop. -/
lemma G2sym_noloop : ∀ a, a ∉ G2sym.adj a := by
  intro a
  by_cases h0 : a = 0
  · subst h0; decide
  · by_cases h1 : a = 1
    · subst h1; decide
    · simp [G2sym, h0, h1]

/-- Its communicating processes index into the size array `[1, 1]`. -/
lemma G2sym_len : ∀ a b, b ∈ G2sym.adj a →
    a < ([1, 1] : List ℤ).length ∧ b < ([1, 1] : List ℤ).length := by
  intro a b hb
  by_cases h0 : a = 0
  · subst h0
    simp [G2sym] at hb
    subst hb
    decide
  · by_cases h1 : a = 1
    · subst h1
      simp [G2sym] at hb
      subst hb
      decide
    · simp [G2sym, h0, h1] at hb

/-- Witness for the amended C9 on the two-process both-directions graph. -/
theorem generate_edges_inter_partition_witness :
    allInterPart (generateEdges ⟨2, []⟩ [1, 1] G2sym 0 cRng) [1, 1] = true :=
  generate_edges_inter_partition cRng cRng_valid G2sym [1, 1] 0 2
    G2sym_noloop G2sym_len

/-! ### Claim C4 -/

/-- Claim C4 (amended): in the spec's scenario A (directed volumes
`0 → 1` of 5 and `1 → 0` of 3, both single outgoing edges),
`initialize_graph` is forced to the sizes `[5, 3]` for every mean position,
skew and gauss stream; and with `edge_connection_prob = 1` and any valid
random stream `generate_edges` connects all 15 bipartite pairs between the
two partition ranges and adds no other pair — the complete bipartite graph
as a simple graph.  The multigraph edge COUNT, however, is not 15
independent of seed: the coverage passes can duplicate an edge (see the
counterexample with 16 records). -/
theorem scenario_a_amended (meanPosition skew : ℚ) (g2 : ℚ → ℚ → ℕ → ℚ)
    (r : EdgeRng) (hr : r.Valid) :
    initializeGraph G45 meanPosition skew g2 = [5, 3]
    ∧ completeBipartite53 (generateEdges ⟨8, []⟩ [5, 3] G45 1 r) = true := by
  refine ⟨rfl, ?_⟩
  obtain ⟨c', g', hok, hsub, hcU, hcV, hchar, hcomp⟩ :=
    processPair_main r hr G45 [5, 3] (partOffsets [5, 3]) 1 ⟨[], 0, ⟨8, []⟩⟩ 0 1
      rfl rfl (by decide) (by decide) (by decide) (by decide)
  have hstep1 : genEdgesInner r G45 [5, 3] (partOffsets [5, 3]) 1 0
      (G45.adj 0) ⟨[], 0, ⟨8, []⟩⟩ = .ok ⟨[(0, 1)], c', g'⟩ := by
    rw [show G45.adj 0 = [1] from rfl]
    rw [show genEdgesInner r G45 [5, 3] (partOffsets [5, 3]) 1 0 [1]
          ⟨[], 0, ⟨8, []⟩⟩
        = (match processPair r G45 [5, 3] (partOffsets [5, 3]) 1
              ⟨[], 0, ⟨8, []⟩⟩ 0 1 with
          | .error e => .error e
          | .ok st1 => genEdgesInner r G45 [5, 3] (partOffsets [5, 3]) 1 0 [] st1)
        from rfl]
    rw [hok]
    rfl
  have hstep2 : processPair r G45 [5, 3] (partOffsets [5, 3]) 1
      ⟨[(0, 1)], c', g'⟩ 1 0 = .ok ⟨[(0, 1)], c', g'⟩ := by
    have hcond : (([((0 : ℕ), (1 : ℕ))] : List (ℕ × ℕ)).contains (1, 0)
        || ([((0 : ℕ), (1 : ℕ))] : List (ℕ × ℕ)).contains (0, 1)) = true := by
      decide
    unfold processPair
    exact if_pos hcond
  have hstep3 : genEdgesNodes r G45 [5, 3] (partOffsets [5, 3]) 1 [1]
      ⟨[(0, 1)], c', g'⟩ = .ok ⟨[(0, 1)], c', g'⟩ := by
    rw [show genEdgesNodes r G45 [5, 3] (partOffsets [5, 3]) 1 [1]
          ⟨[(0, 1)], c', g'⟩
        = (match genEdgesInner r G45 [5, 3] (partOffsets [5, 3]) 1 1 (G45.adj 1)
              ⟨[(0, 1)], c', g'⟩ with
          | .error e => .error e
          | .ok st1 => genEdgesNodes r G45 [5, 3] (partOffsets [5, 3]) 1 [] st1)
        from rfl]
    rw [show G45.adj 1 = [0] from rfl]
    rw [show genEdgesInner r G45 [5, 3] (partOffsets [5, 3]) 1 1 [0]
          ⟨[(0, 1)], c', g'⟩
        = (match processPair r G45 [5, 3] (partOffsets [5, 3]) 1
              ⟨[(0, 1)], c', g'⟩ 1 0 with
          | .error e => .error e
          | .ok st1 => genEdgesInner r G45 [5, 3] (partOffsets [5, 3]) 1 1 [] st1)
        from rfl]
    rw [hstep2]
    rfl
  have hfull : genEdgesNodes r G45 [5, 3] (partOffsets [5, 3]) 1 [0, 1]
      ⟨[], 0, ⟨8, []⟩⟩ = .ok ⟨[(0, 1)], c', g'⟩ := by
    rw [show genEdgesNodes r G45 [5, 3] (partOffsets [5, 3]) 1 [0, 1]
          ⟨[], 0, ⟨8, []⟩⟩
        = (match genEdgesInner r G45 [5, 3] (partOffsets [5, 3]) 1 0 (G45.adj 0)
              ⟨[], 0, ⟨8, []⟩⟩ with
          | .error e => .error e
          | .ok st1 => genEdgesNodes r G45 [5, 3] (partOffsets [5, 3]) 1 [1] st1)
        from rfl]
    rw [hstep1]
    exact hstep3
  have hrun : generateEdges ⟨8, []⟩ [5, 3] G45 1 r = .ok g' := by
    unfold generateEdges
    rw [show List.range G45.numNodes = [0, 1] from rfl, hfull]
  have hSUdef : pairSampleU r G45 [5, 3] (partOffsets [5, 3]) 0 0 1
      = sampleDistinctFromRange r 0 0 5 5 := rfl
  have hSVdef : pairSampleV r G45 [5, 3] (partOffsets [5, 3]) 0 0 1
      = sampleDistinctFromRange r 1 5 3 3 := rfl
  have hsU := sampleDFR_spec r hr 0 0 5 5 (by norm_num)
  have hsV := sampleDFR_spec r hr 1 5 3 3 (by norm_num)
  have hcompU : ∀ y : ℤ, 0 ≤ y → y < 5 → y ∈ sampleDistinctFromRange r 0 0 5 5 := by
    have hmem : ∀ x ∈ sampleDistinctFromRange r 0 0 5 5,
        (0 : ℤ) ≤ x ∧ x < 0 + ((5 : ℕ) : ℤ) := by
      intro x hx
      have := hsU.2.2 x hx
      constructor
      · exact this.1
      · push_cast
        omega
    have := sample_complete (sampleDistinctFromRange r 0 0 5 5) 0 5
      (by rw [hsU.1]; rfl) hsU.2.1 hmem
    intro y h1 h2
    apply this y h1
    push_cast
    omega
  have hcompV : ∀ y : ℤ, 5 ≤ y → y < 8 → y ∈ sampleDistinctFromRange r 1 5 3 3 := by
    have hmem : ∀ x ∈ sampleDistinctFromRange r 1 5 3 3,
        (5 : ℤ) ≤ x ∧ x < 5 + ((3 : ℕ) : ℤ) := by
      intro x hx
      have := hsV.2.2 x hx
      constructor
      · exact this.1
      · push_cast
        omega
    have := sample_complete (sampleDistinctFromRange r 1 5 3 3) 5 3
      (by rw [hsV.1]; rfl) hsV.2.1 hmem
    intro y h1 h2
    apply this y h1
    push_cast
    omega
  rw [hrun]
  unfold completeBipartite53
  rw [Bool.and_eq_true]
  constructor
  · rw [List.all_eq_true]
    intro a ha
    rw [List.all_eq_true]
    intro b hb
    have ha5 : a < 5 := List.mem_range.mp ha
    have hb3 : b < 3 := List.mem_range.mp hb
    apply hcomp (fun cc => (hr.2.2 cc).2)
    · rw [hSUdef]
      apply hcompU
      · exact_mod_cast Nat.zero_le a
      · exact_mod_cast ha5
    · rw [hSVdef]
      apply hcompV
      · omega
      · omega
  · rw [List.all_eq_true]
    intro e he
    rcases hchar e he with he0 | he0
    · cases he0
    · have h1 := hsU.2.2 e.1 (by rw [← hSUdef]; exact he0.1)
      have h2 := hsV.2.2 e.2 (by rw [← hSVdef]; exact he0.2)
      simp only [decide_eq_true_eq]
      refine ⟨h1.1, ?_, ?_, ?_⟩ <;> omega

/-- Witness for the amended C4 at the concrete deterministic stream. -/
theorem scenario_a_amended_witness :
    initializeGraph G45 0 0 zeroGauss = [5, 3]
    ∧ completeBipartite53 (generateEdges ⟨8, []⟩ [5, 3] G45 1 cRng) = true :=
  scenario_a_amended 0 0 zeroGauss cRng cRng_valid
